import Mathlib

/-!
Verification development for the Cocktail compiler front-end
(`src/lib/Lexer/NumericLiteral.cc`, `src/lib/Lexer/StringLiteral.cc`,
`src/lib/Parser/ParseTree.cc`).

Shallow embedding conventions:
* `llvm::StringRef` values are embedded as `List Char`; `substr`, `take_front`,
  `consume_front`, `take_while`, `drop_front` become the corresponding list
  operations (`take`, `drop`, `takeWhile`, `isPrefixOf`, ...).
* `llvm::APInt` arithmetic is embedded as exact `Nat`/`Int` arithmetic.  The
  source's explicit width extensions (`zext`, `setSignBit` in `GetExponent`)
  exist precisely to keep the arbitrary-precision computation exact, so the
  mathematical integer semantics coincides with the `APInt` semantics on every
  value the lexer can produce.
* Diagnostics are accumulated in a `List Diag`, in emission order, instead of
  going through a `DiagnosticEmitter`.
* Fallible parsing (`StringRef::getAsInteger`, which the source guards with
  `llvm_unreachable`) is embedded with `Option`.
-/

namespace Cocktail

/-- Diagnostic kinds emitted by the numeric- and string-literal analyzers.
Each constructor corresponds to one diagnostic struct in the source, with the
format parameters it carries. -/
inductive Diag where
  | EmptyDigitSequence : Diag
  | InvalidDigit (digit : Char) (radix : Nat) : Diag
  | InvalidDigitSeparator : Diag
  | IrregularDigitSeparators (radix : Nat) : Diag
  | UnknownBaseSpecifier : Diag
  | BinaryRealLiteral : Diag
  | WrongRealLiteralExponent (expected : Char) : Diag
  | ContentBeforeStringTerminator : Diag
  | UnicodeEscapeTooLarge : Diag
  | UnicodeEscapeSurrogate : Diag
  | UnicodeEscapeMissingBracedDigits : Diag
  | HexadecimalEscapeMissingDigits : Diag
  | DecimalEscapeSequence : Diag
  | UnknownEscapeSequence (first : Char) : Diag
  | MismatchedIndentInString : Diag
  | InvalidHorizontalWhitespaceInString : Diag
  deriving DecidableEq, Repr

/-- Value of a numeric literal (`LexedNumericLiteral::Value`): a tagged union
of `IntegerValue`, `RealValue` and `UnrecoverableError`. -/
inductive NumValue where
  | integer (value : Nat) : NumValue
  | real (radix : Nat) (mantissa : Nat) (exponent : Int) : NumValue
  | unrecoverableError : NumValue
  deriving DecidableEq, Repr

/-- Modelled from the spec: the character classifier's "decimal digit"
predicate (`CharacterSet.h` is not under `src/`). -/
def IsDecimalDigit (c : Char) : Bool := '0' ≤ c && c ≤ '9'

/-- Modelled from the spec: the character classifier's "uppercase-hex digit"
predicate (`CharacterSet.h` is not under `src/`). -/
def IsUpperHexDigit (c : Char) : Bool := ('0' ≤ c && c ≤ '9') || ('A' ≤ c && c ≤ 'F')

/-- Modelled from the spec: the character classifier's "horizontal whitespace"
predicate, satisfied by plain space and tab (`CharacterSet.h` is not under
`src/`). -/
def IsHorizontalWhitespace (c : Char) : Bool := c = ' ' || c = '\t'

/-- Modelled from the spec: the character classifier's "space" predicate,
satisfied by horizontal whitespace and newline (`CharacterSet.h` is not under
`src/`). -/
def IsSpace (c : Char) : Bool := c = ' ' || c = '\t' || c = '\n'

/-- The digit value `llvm`'s integer parsing assigns to a character
(`0`-`9`, then `a`-`z` and `A`-`Z` starting at 10), `none` for any other
character. -/
def digitVal (c : Char) : Option Nat :=
  if '0' ≤ c && c ≤ '9' then some (c.toNat - 48)
  else if 'a' ≤ c && c ≤ 'z' then some (c.toNat - 97 + 10)
  else if 'A' ≤ c && c ≤ 'Z' then some (c.toNat - 65 + 10)
  else none

/-- Accumulator loop of `StringRef::getAsInteger`: fails on a character whose
digit value is missing or not below the radix. -/
def parseDigitsLoop (radix : Nat) (acc : Nat) : List Char → Option Nat
  | [] => some acc
  | c :: cs =>
    match digitVal c with
    | none => none
    | some v => if v < radix then parseDigitsLoop radix (acc * radix + v) cs else none

/-- `ParseInteger` from `NumericLiteral.cc`: optionally remove digit
separators and radix points, then parse with `getAsInteger`.  The source wraps
the failure case in `llvm_unreachable`; the embedding returns `none` there. -/
def ParseInteger (digits : List Char) (radix : Nat) (needs_cleaning : Bool) : Option Nat :=
  let ds := if needs_cleaning then digits.filter (fun c => !(c = '_' || c = '.')) else digits
  if ds.isEmpty then none else parseDigitsLoop radix 0 ds

/-- Specification-side value of a digit string: the mathematical value of the
digits read in the given radix. -/
def natOfDigits (radix : Nat) (digits : List Char) : Nat :=
  digits.foldl (fun acc c => acc * radix + (digitVal c).getD 0) 0

/-- Specification-side separator removal: the digit string with all
underscores deleted. -/
def stripSeparators (digits : List Char) : List Char := digits.filter (fun c => c ≠ '_')

/-- `LexedNumericLiteral`: the recognized source span together with the
in-span offsets of the radix point and the exponent letter (each equal to the
text length when absent). -/
structure LexedNumericLiteral where
  text : List Char
  radix_point : Nat
  exponent : Nat
  deriving DecidableEq, Repr

/-- The state `LexedNumericLiteral::Parser` computes in its constructor:
the detected radix, the three dissected parts, and the exponent sign. -/
structure NumParser where
  lit : LexedNumericLiteral
  radix : Nat
  int_part : List Char
  fract_part : List Char
  exponent_part : List Char
  exponent_is_negative : Bool
  deriving Repr

/-- Constructor of `LexedNumericLiteral::Parser`: split the text at the radix
point and exponent offsets, consume a `0x`/`0b` base prefix off the integer
part, and consume one leading `+`/`-` off the exponent part. -/
def parserInit (lit : LexedNumericLiteral) : NumParser :=
  let ip0 := lit.text.take lit.radix_point
  let radix : Nat := if ['0', 'x'].isPrefixOf ip0 then 16
    else if ['0', 'b'].isPrefixOf ip0 then 2 else 10
  let int_part := if ['0', 'x'].isPrefixOf ip0 then ip0.drop 2
    else if ['0', 'b'].isPrefixOf ip0 then ip0.drop 2 else ip0
  let fract_part := (lit.text.drop (lit.radix_point + 1)).take
    (lit.exponent - lit.radix_point - 1)
  let ep0 := lit.text.drop (lit.exponent + 1)
  let exponent_is_negative := if ['+'].isPrefixOf ep0 then false
    else ['-'].isPrefixOf ep0
  let exponent_part := if ['+'].isPrefixOf ep0 then ep0.drop 1
    else if ['-'].isPrefixOf ep0 then ep0.drop 1 else ep0
  ⟨lit, radix, int_part, fract_part, exponent_part, exponent_is_negative⟩

/-- `Parser::IsInteger`: the lexeme has no radix point. -/
def NumParser.IsInteger (p : NumParser) : Bool :=
  p.lit.radix_point = p.lit.text.length

/-- The per-radix digit bitsets of `CheckDigitSequence`.  The C++ loops
`for (char c : "01")` etc. range over the whole string literal array
including its trailing NUL, so `'\0'` is marked valid in every bitset. -/
def validDigit (radix : Nat) (c : Char) : Bool :=
  if radix = 2 then ['0', '1', Char.ofNat 0].contains c
  else if radix = 10 then
    ['0', '1', '2', '3', '4', '5', '6', '7', '8', '9', Char.ofNat 0].contains c
  else
    ['0', '1', '2', '3', '4', '5', '6', '7', '8', '9',
     'A', 'B', 'C', 'D', 'E', 'F', Char.ofNat 0].contains c

/-- The character loop of `Parser::CheckDigitSequence`.  `prev` is the
character before the current one (`none` at the start, mirroring `i == 0`);
the result is `(ok, num_digit_separators, emitted diagnostics)`. -/
def cdsLoop (radix : Nat) (allow : Bool) : Option Char → List Char → Bool × Nat × List Diag
  | _, [] => (true, 0, [])
  | prev, c :: rest =>
    if validDigit radix c then
      let r := cdsLoop radix allow (some c) rest
      (r.1, r.2.1, r.2.2)
    else if c = '_' then
      let bad : Bool := !allow || prev = none || prev = some '_' || rest = []
      let r := cdsLoop radix allow (some c) rest
      (r.1, r.2.1 + 1, (if bad then [Diag.InvalidDigitSeparator] else []) ++ r.2.2)
    else (false, 0, [Diag.InvalidDigit c radix])

/-- The placement loop of `Parser::CheckDigitSeparatorPlacement`: walk from
the end of the text in strides of 4 (radix 10) or 5 (radix 16) and require an
underscore at each stop. -/
def sepLoop (radix : Nat) (text : List Char) (pos : Nat) (remaining : Int) : List Diag :=
  if h : (if radix = 10 then 4 else 5) ≤ pos then
    let pos2 := pos - (if radix = 10 then 4 else 5)
    if text.getD pos2 (Char.ofNat 0) = '_' then sepLoop radix text pos2 (remaining - 1)
    else [Diag.IrregularDigitSeparators radix]
  else if remaining ≠ 0 then [Diag.IrregularDigitSeparators radix] else []
  termination_by pos
  decreasing_by
    by_cases hr : radix = 10 <;> simp [hr] at h ⊢ <;> omega

/-- `Parser::CheckDigitSeparatorPlacement`: no constraint for radix 2,
otherwise run the stride walk over the whole text. -/
def CheckDigitSeparatorPlacement (text : List Char) (radix : Nat) (nsep : Nat) : List Diag :=
  if radix = 2 then [] else sepLoop radix text text.length (nsep : Int)

/-- `Parser::CheckDigitSequence`: run the character loop, detect an empty
digit sequence, and check separator placement when separators occurred.
Result: `(ok, has_digit_separators, emitted diagnostics)`. -/
def CheckDigitSequence (radix : Nat) (allow : Bool) (text : List Char) :
    Bool × Bool × List Diag :=
  let r := cdsLoop radix allow none text
  if !r.1 then (false, false, r.2.2)
  else if r.2.1 = text.length then (false, false, r.2.2 ++ [Diag.EmptyDigitSequence])
  else if r.2.1 ≠ 0 then
    (true, true, r.2.2 ++ CheckDigitSeparatorPlacement text radix r.2.1)
  else (true, false, r.2.2)

/-- `Parser::CheckLeadingZero`: a radix-10 integer part other than `"0"` must
not start with `0`. -/
def CheckLeadingZero (radix : Nat) (int_part : List Char) : Bool × List Diag :=
  if radix = 10 && ['0'].isPrefixOf int_part && int_part ≠ ['0'] then
    (false, [Diag.UnknownBaseSpecifier])
  else (true, [])

/-- `Parser::CheckExponentPart`: absent exponents pass; otherwise the marker
must be `e` (radix 10) or `p` (radix 16/2) and the body a base-10 digit
sequence.  Result: `(ok, exponent_needs_cleaning, diagnostics)`. -/
def NumParser.CheckExponentPart (p : NumParser) : Bool × Bool × List Diag :=
  if p.lit.exponent = p.lit.text.length then (true, false, [])
  else
    let expected : Char := if p.radix = 10 then 'e' else 'p'
    if p.lit.text.getD p.lit.exponent (Char.ofNat 0) ≠ expected then
      (false, false, [Diag.WrongRealLiteralExponent expected])
    else
      let er := CheckDigitSequence 10 true p.exponent_part
      (er.1, er.2.1, er.2.2)

/-- `Parser::Check`: the short-circuit conjunction of the four component
checks, threading the `mantissa_needs_cleaning` / `exponent_needs_cleaning`
flags the source keeps as parser state.  Result:
`(ok, mantissa_needs_cleaning, exponent_needs_cleaning, diagnostics)`.
`CheckFractionalPart` is inlined here: it passes for integers, emits
`BinaryRealLiteral` when radix is 2 (and then continues!), marks the mantissa
for cleaning and validates the fractional digits without separators. -/
def NumParser.Check (p : NumParser) : Bool × Bool × Bool × List Diag :=
  let lz := CheckLeadingZero p.radix p.int_part
  if !lz.1 then (false, false, false, lz.2)
  else
    let ir := CheckDigitSequence p.radix true p.int_part
    if !ir.1 then (false, ir.2.1, false, lz.2 ++ ir.2.2)
    else if p.IsInteger then
      let ex := p.CheckExponentPart
      (ex.1, ir.2.1, ex.2.1, lz.2 ++ ir.2.2 ++ ex.2.2)
    else
      let bd : List Diag := if p.radix = 2 then [Diag.BinaryRealLiteral] else []
      let fr := CheckDigitSequence p.radix false p.fract_part
      if !fr.1 then (false, true, false, lz.2 ++ ir.2.2 ++ bd ++ fr.2.2)
      else
        let ex := p.CheckExponentPart
        (ex.1, true, ex.2.1, lz.2 ++ ir.2.2 ++ bd ++ fr.2.2 ++ ex.2.2)

/-- `Parser::GetMantissa`: parse the span from the start of the integer part
to the end of the fractional part (for reals this includes the radix point
character, which cleaning removes). -/
def NumParser.GetMantissa (p : NumParser) (needs_cleaning : Bool) : Option Nat :=
  let digits := if p.IsInteger then p.int_part
    else p.int_part ++ [p.lit.text.getD p.lit.radix_point (Char.ofNat 0)] ++ p.fract_part
  ParseInteger digits p.radix needs_cleaning

/-- `Parser::GetExponent`: the signed encoded exponent (0 when absent) minus
the fractional-digit compensation (`fract_len`, times 4 for radix 16).  The
source's `APInt` width juggling keeps this computation exact, so it is
embedded as exact `Int` arithmetic. -/
def NumParser.GetExponent (p : NumParser) (needs_cleaning : Bool) : Option Int :=
  let base : Option Int :=
    if p.exponent_part.isEmpty then some 0
    else (ParseInteger p.exponent_part 10 needs_cleaning).map
      (fun v => if p.exponent_is_negative then -(v : Int) else (v : Int))
  let excess : Int := (p.fract_part.length : Int) * (if p.radix = 16 then 4 else 1)
  base.map (fun e => e - excess)

/-- `LexedNumericLiteral::ComputeValue`: run the checks, then produce an
`IntegerValue`, a `RealValue` (whose radix is 2 unless the source radix was
10), or `UnrecoverableError`.  The `none` result stands for the
`llvm_unreachable` inside `ParseInteger`, which no lexed literal reaches. -/
def LexedNumericLiteral.ComputeValue (lit : LexedNumericLiteral) :
    Option NumValue × List Diag :=
  let p := parserInit lit
  let c := p.Check
  if !c.1 then (some NumValue.unrecoverableError, c.2.2.2)
  else if p.IsInteger then
    match p.GetMantissa c.2.1 with
    | none => (none, c.2.2.2)
    | some m => (some (NumValue.integer m), c.2.2.2)
  else
    match p.GetMantissa c.2.1, p.GetExponent c.2.2.1 with
    | some m, some e =>
      (some (NumValue.real (if p.radix = 10 then 10 else 2) m e), c.2.2.2)
    | _, _ => (none, c.2.2.2)

/-! ## String literals (`src/lib/Lexer/StringLiteral.cc`) -/

/-- `LexedStringLiteral`: full text, inner content, number of leading `#`s,
multi-line flag and termination flag. -/
structure LexedStringLiteral where
  text : List Char
  content : List Char
  hash_level : Nat
  multi_line : Bool
  is_terminated : Bool
  deriving DecidableEq, Repr

/-- The terminator the lexer expects: `"` (or `"""` for multi-line) followed
by `hash_level` `#` characters. -/
def mkTerminator (multi : Bool) (hash_level : Nat) : List Char :=
  (if multi then ['"', '"', '"'] else ['"']) ++ List.replicate hash_level '#'

/-- The escape introducer: `\` followed by `hash_level` `#` characters. -/
def mkEscape (hash_level : Nat) : List Char :=
  '\\' :: List.replicate hash_level '#'

/-- `GetMultiLineStringLiteralPrefixSize`: after `"""`, the rest of the line
must contain neither `#` nor `"` and end in a newline; the returned size
includes that newline (0 when the text does not open a multi-line string). -/
def GetMultiLineStringLiteralPrefixSize (source_text : List Char) : Nat :=
  if ['"', '"', '"'].isPrefixOf source_text then
    match (source_text.drop 3).findIdx? (fun c => c = '#' || c = '\n' || c = '"') with
    | none => 0
    | some k => if source_text.getD (3 + k) (Char.ofNat 0) = '\n' then 3 + k + 1 else 0
  else 0

/-- The scanning loop of `LexedStringLiteral::Lex` (the `for` over `cursor`),
with the precomputed terminator, escape introducer and prefix length. -/
def strLexLoop (source : List Char) (multi : Bool) (hash_level : Nat) (prefix_len : Nat)
    (terminator escape : List Char) (cursor : Nat) : LexedStringLiteral :=
  if cursor < source.length then
    let c := source.getD cursor (Char.ofNat 0)
    if c = '\\' then
      if escape.length = 1 || escape.isPrefixOf (source.drop cursor) then
        let cursor2 := cursor + escape.length
        if cursor2 ≥ source.length ||
            (!multi && source.getD cursor2 (Char.ofNat 0) = '\n') then
          ⟨source.take cursor2, (source.take cursor2).drop prefix_len,
            hash_level, multi, false⟩
        else strLexLoop source multi hash_level prefix_len terminator escape (cursor2 + 1)
      else strLexLoop source multi hash_level prefix_len terminator escape (cursor + 1)
    else if c = '\n' then
      if !multi then
        ⟨source.take cursor, (source.take cursor).drop prefix_len, hash_level, multi, false⟩
      else strLexLoop source multi hash_level prefix_len terminator escape (cursor + 1)
    else if c = '"' then
      if terminator.length = 1 || terminator.isPrefixOf (source.drop cursor) then
        ⟨source.take (cursor + terminator.length),
          (source.drop prefix_len).take (cursor - prefix_len), hash_level, multi, true⟩
      else strLexLoop source multi hash_level prefix_len terminator escape (cursor + 1)
    else strLexLoop source multi hash_level prefix_len terminator escape (cursor + 1)
  else ⟨source, source.drop prefix_len, hash_level, multi, false⟩
  termination_by source.length - cursor

/-- `LexedStringLiteral::Lex`: count the leading `#`s, recognize the
multi-line or simple opening, and scan the content. -/
def LexedStringLiteral.Lex (source_text : List Char) : Option LexedStringLiteral :=
  let hash_level := (source_text.takeWhile (fun c => c = '#')).length
  let mlp := GetMultiLineStringLiteralPrefixSize (source_text.drop hash_level)
  if 0 < mlp then
    let cursor := hash_level + mlp
    some (strLexLoop source_text true hash_level cursor
      (mkTerminator true hash_level) (mkEscape hash_level) cursor)
  else if hash_level < source_text.length &&
      source_text.getD hash_level (Char.ofNat 0) = '"' then
    some (strLexLoop source_text false hash_level (hash_level + 1)
      (mkTerminator false hash_level) (mkEscape hash_level) (hash_level + 1))
  else none

/-- The backward scan of `ComputeIndentOfFinalLine`, returning the start and
end offsets of the indent within `text`.  The source guards the fallthrough
with `llvm_unreachable` (the text of a terminated multi-line literal always
contains a newline); the embedding returns `(0, 0)` there. -/
def indentOffsetsLoop (text : List Char) (indent_end : Nat) (i : Int) : Nat × Nat :=
  if h : 0 ≤ i then
    let c := text.getD i.toNat (Char.ofNat 0)
    if c = '\n' then (i.toNat + 1, indent_end)
    else indentOffsetsLoop text (if !IsSpace c then i.toNat else indent_end) (i - 1)
  else (0, 0)
  termination_by (i + 1).toNat
  decreasing_by omega

/-- `ComputeIndentOfFinalLine` as offsets: the run of whitespace between the
final newline of `text` and the first non-space character after it. -/
def indentOffsets (text : List Char) : Nat × Nat :=
  indentOffsetsLoop text text.length ((text.length : Int) - 1)

/-- `CheckIndent`: compute the indent of the final line and diagnose content
before the closing `"""`.  The source compares `indent.end()` with
`content.end()` as pointers into the shared buffer; for a terminated
multi-line literal the content ends exactly where the closing terminator
(`"""` plus `hash_level` `#`s) begins, i.e. at offset
`text.length - (3 + hash_level)`. -/
def CheckIndent (text : List Char) (hash_level : Nat) : List Char × List Diag :=
  let se := indentOffsets text
  let indent := (text.drop se.1).take (se.2 - se.1)
  (indent,
    if se.2 ≠ text.length - (3 + hash_level) then [Diag.ContentBeforeStringTerminator]
    else [])

/-- Modelled from the spec: `CanLexInteger` (from `LexHelpers`, not under
`src/`) accepts the digit sequences the escape table admits, `1` to `6`
uppercase hex digits. -/
def CanLexInteger (digits : List Char) : Bool := digits.length ≤ 6

/-- Modelled from the spec / `llvm::ConvertUTF32toUTF8`: standard UTF-8
encoding of a code point, as a list of code-unit characters. -/
def utf8Encode (v : Nat) : List Char :=
  if v < 128 then [Char.ofNat v]
  else if v < 2048 then
    [Char.ofNat (192 + v / 64), Char.ofNat (128 + v % 64)]
  else if v < 65536 then
    [Char.ofNat (224 + v / 4096), Char.ofNat (128 + v / 64 % 64), Char.ofNat (128 + v % 64)]
  else
    [Char.ofNat (240 + v / 262144), Char.ofNat (128 + v / 4096 % 64),
     Char.ofNat (128 + v / 64 % 64), Char.ofNat (128 + v % 64)]

/-- `ExpandUnicodeEscapeSequence`: parse the braced digits as an `unsigned`
(failing on overflow past `2^32`), reject values above `0x10FFFF` and
surrogates, and otherwise emit the UTF-8 encoding.  Result:
`(ok, bytes appended, diagnostics)`. -/
def ExpandUnicodeEscapeSequence (digits : List Char) : Bool × List Char × List Diag :=
  if !CanLexInteger digits then (false, [], [])
  else
    match parseDigitsLoop 16 0 digits with
    | none => (false, [], [Diag.UnicodeEscapeTooLarge])
    | some v =>
      if 4294967296 ≤ v then (false, [], [Diag.UnicodeEscapeTooLarge])
      else if 1114111 < v then (false, [], [Diag.UnicodeEscapeTooLarge])
      else if 55296 ≤ v && v < 57344 then (false, [], [Diag.UnicodeEscapeSurrogate])
      else (true, utf8Encode v, [])

/-- The digit value of an uppercase hex nibble (`llvm::hexFromNibbles`). -/
def hexNibble (c : Char) : Nat := (digitVal c).getD 0

/-- `ExpandAndConsumeEscapeSequence`: `first` is the character after the
escape introducer and `content` the rest.  Result: `(bytes appended to the
decoded value, number of characters consumed from `content`, diagnostics)`
(the source consumes with `drop_front`).  Note the failure paths fall through
the `switch` to `result += first`: the escaped character is kept. -/
def ExpandAndConsumeEscapeSequence (first : Char) (content : List Char) :
    List Char × Nat × List Diag :=
  if first = 't' then (['\t'], 0, [])
  else if first = 'n' then (['\n'], 0, [])
  else if first = 'r' then (['\r'], 0, [])
  else if first = '"' then (['"'], 0, [])
  else if first = Char.ofNat 39 then ([Char.ofNat 39], 0, [])
  else if first = '\\' then (['\\'], 0, [])
  else if first = '0' then
    match content.head? with
    | some c =>
      if IsDecimalDigit c then ([Char.ofNat 0], 0, [Diag.DecimalEscapeSequence])
      else ([Char.ofNat 0], 0, [])
    | none => ([Char.ofNat 0], 0, [])
  else if first = 'x' then
    match content with
    | c1 :: c2 :: _ =>
      if IsUpperHexDigit c1 && IsUpperHexDigit c2 then
        ([Char.ofNat (16 * hexNibble c1 + hexNibble c2)], 2, [])
      else (['x'], 0, [Diag.HexadecimalEscapeMissingDigits])
    | _ => (['x'], 0, [Diag.HexadecimalEscapeMissingDigits])
  else if first = 'u' then
    match content with
    | b :: rest0 =>
      if b = Char.ofNat 123 then
        let digits := rest0.takeWhile IsUpperHexDigit
        let remaining := rest0.drop digits.length
        if digits ≠ [] && remaining.head? = some (Char.ofNat 125) then
          let r := ExpandUnicodeEscapeSequence digits
          if r.1 then (r.2.1, 1 + digits.length + 1, r.2.2)
          else (['u'], 0, r.2.2)
        else (['u'], 0, [Diag.UnicodeEscapeMissingBracedDigits])
      else (['u'], 0, [Diag.UnicodeEscapeMissingBracedDigits])
    | [] => (['u'], 0, [Diag.UnicodeEscapeMissingBracedDigits])
  else ([first], 0, [Diag.UnknownEscapeSequence first])

/-- The characters at which the regular-text run of
`ExpandEscapeSequencesAndRemoveIndent` stops: newline, backslash, or
horizontal whitespace other than plain space. -/
def stringSpecialChar (c : Char) : Bool :=
  c = '\n' || c = '\\' || (IsHorizontalWhitespace c && c ≠ ' ')

/-- The trailing-whitespace strip applied when a newline is appended: pop
spaces from the end of the output, stopping at a newline. -/
def stripTrailingSpaces (acc : List Char) : List Char :=
  (acc.reverse.dropWhile (fun c => c ≠ '\n' && IsSpace c)).reverse

/-!
The two nested `while (true)` loops of `ExpandEscapeSequencesAndRemoveIndent`
are embedded as the mutual pair `expandOuter` / `expandInner` below.
`expandOuter` performs the per-line indent strip; `expandInner` copies regular
text and handles newlines, stray horizontal whitespace and escape sequences.
`acc` is the output accumulated so far and `ds` the diagnostics emitted so
far.  The `[]`-after-introducer case models the source's `COCKTAIL_CHECK`
failure (unreachable for lexed literals) by returning the value so far.
-/

mutual

def expandOuter (escape indent : List Char) (contents : List Char) (acc : List Char)
    (ds : List Diag) : List Char × List Diag :=
  if indent.isPrefixOf contents then
    expandInner escape indent (contents.drop indent.length) acc ds
  else
    let rest := contents.dropWhile IsHorizontalWhitespace
    if rest.head? = some '\n' then expandInner escape indent rest acc ds
    else expandInner escape indent rest acc (ds ++ [Diag.MismatchedIndentInString])
  termination_by 2 * contents.length + 1
  decreasing_by
    · have h1 : (contents.drop indent.length).length ≤ contents.length := by
        simp [List.length_drop]
      omega
    · have h1 : (contents.dropWhile IsHorizontalWhitespace).length ≤ contents.length := by
        have h := congrArg List.length
          (List.takeWhile_append_dropWhile IsHorizontalWhitespace contents)
        simp only [List.length_append] at h
        omega
      omega
    · have h1 : (contents.dropWhile IsHorizontalWhitespace).length ≤ contents.length := by
        have h := congrArg List.length
          (List.takeWhile_append_dropWhile IsHorizontalWhitespace contents)
        simp only [List.length_append] at h
        omega
      omega

def expandInner (escape indent : List Char) (contents : List Char) (acc : List Char)
    (ds : List Diag) : List Char × List Diag :=
  let run := contents.takeWhile (fun c => !stringSpecialChar c)
  let rest := contents.dropWhile (fun c => !stringSpecialChar c)
  let acc2 := acc ++ run
  match hr : rest with
  | [] => (acc2, ds)
  | c :: rest2 =>
    if c = '\n' then
      expandOuter escape indent rest2 (stripTrailingSpaces acc2 ++ ['\n']) ds
    else if IsHorizontalWhitespace c then
      let ws := rest.takeWhile IsHorizontalWhitespace
      let after := rest.dropWhile IsHorizontalWhitespace
      if after.head? = some '\n' then expandInner escape indent after acc2 ds
      else expandInner escape indent after (acc2 ++ ws)
        (ds ++ [Diag.InvalidHorizontalWhitespaceInString])
    else if escape.isPrefixOf rest then
      match he : rest.drop escape.length with
      | [] => (acc2, ds)
      | '\n' :: rest3 => expandOuter escape indent rest3 acc2 ds
      | c2 :: rest3 =>
        let r := ExpandAndConsumeEscapeSequence c2 rest3
        expandInner escape indent (rest3.drop r.2.1) (acc2 ++ r.1) (ds ++ r.2.2)
    else expandInner escape indent rest2 (acc2 ++ [c]) ds
  termination_by 2 * contents.length
  decreasing_by
    all_goals
      have hrest : List.dropWhile (fun c => !stringSpecialChar c) contents = c :: rest2 := hr
    all_goals
      have hsplit := congrArg List.length
        (List.takeWhile_append_dropWhile (fun c => !stringSpecialChar c) contents)
      simp only [List.length_append, hrest, List.length_cons] at hsplit
    · omega
    · rw [hrest]
      rename_i hc _
      rw [List.dropWhile_cons_of_pos hc]
      have h := congrArg List.length
        (List.takeWhile_append_dropWhile IsHorizontalWhitespace rest2)
      simp only [List.length_append] at h
      omega
    · rw [hrest]
      rename_i hc _
      rw [List.dropWhile_cons_of_pos hc]
      have h := congrArg List.length
        (List.takeWhile_append_dropWhile IsHorizontalWhitespace rest2)
      simp only [List.length_append] at h
      omega
    · have hdrop : (c :: rest2).drop escape.length = '\n' :: rest3 := by
        rw [← hrest]; exact he
      have h4 := congrArg List.length hdrop
      simp only [List.length_drop, List.length_cons] at h4
      omega
    · have hdrop : (c :: rest2).drop escape.length = c2 :: rest3 := by
        rw [← hrest]; exact he
      have h4 := congrArg List.length hdrop
      simp only [List.length_drop, List.length_cons] at h4
      have h5 : (rest3.drop (ExpandAndConsumeEscapeSequence c2 rest3).2.1).length ≤
          rest3.length := by simp [List.length_drop]
      omega
    · omega

end

/-- `LexedStringLiteral::ComputeValue`: empty for unterminated literals;
otherwise check the indent (multi-line only) and expand escape sequences. -/
def LexedStringLiteral.ComputeValue (lit : LexedStringLiteral) : List Char × List Diag :=
  if !lit.is_terminated then ([], [])
  else
    let ci := if lit.multi_line then CheckIndent lit.text lit.hash_level
      else ([], [])
    expandOuter (mkEscape lit.hash_level) ci.1 lit.content [] ci.2

/-! ## Parse tree (`src/lib/Parser/ParseTree.cc`) -/

/-- `ParseTree::NodeImpl`: one node record of the post-order array.  `kind`
and `token` are opaque indices here (the claims only concern the tree
structure encoded by `subtree_size`). -/
structure ParseNodeImpl where
  kind : Nat
  token : Nat
  subtree_size : Nat
  has_error : Bool
  deriving DecidableEq, Repr

/-- A parse tree: the post-order sequence of node records. -/
abbrev ParseTree := List ParseNodeImpl

/-- The `subtree_size` of the node at a given index. -/
def subtreeSizeAt (t : ParseTree) (i : Nat) : Nat :=
  ((t : List ParseNodeImpl).getD i ⟨0, 0, 0, false⟩).subtree_size

/-- `PostorderIterator` advances the node index by one until it reaches the
end node; the range `[idx, stop)` therefore enumerates consecutive indices. -/
def postorderSeq (idx stop : Int) : List Int :=
  if h : stop ≤ idx then []
  else idx :: postorderSeq (idx + 1) stop
  termination_by (stop - idx).toNat
  decreasing_by omega

/-- `ParseTree::Postorder(n)`: iterate the subtree rooted at index `i`, from
`i + 1 - subtree_size` (inclusive) to `i + 1` (exclusive). -/
def ParseTree.Postorder (t : ParseTree) (i : Nat) : List Int :=
  postorderSeq ((i : Int) + 1 - subtreeSizeAt t i) ((i : Int) + 1)

/-- `SiblingIterator`: from the current index, repeatedly step back by the
current node's `subtree_size` until the terminator index is reached.  The
`s = 0` guard covers node records the source's `Verify` rejects (a zero
`subtree_size` would make the C++ iterator loop forever); it is unreachable
under the subtree-span invariants. -/
def siblingWalk (t : ParseTree) (idx : Int) (stop : Int) : List Int :=
  if h : idx ≤ stop then []
  else
    let s := subtreeSizeAt t idx.toNat
    if hs : s = 0 then []
    else idx :: siblingWalk t (idx - s) stop
  termination_by (idx - stop).toNat
  decreasing_by omega

/-- `ParseTree::Children(n)`: the sibling walk from `i - 1` with terminator
`i - subtree_size(i)` (exclusive). -/
def ParseTree.Children (t : ParseTree) (i : Nat) : List Int :=
  siblingWalk t ((i : Int) - 1) ((i : Int) - subtreeSizeAt t i)

/-- `ParseTree::Roots()`: the sibling walk from the last index with
terminator `-1`. -/
def ParseTree.Roots (t : ParseTree) : List Int :=
  siblingWalk t ((t : List ParseNodeImpl).length - 1) (-1)

/-- The subtree-span invariant of the post-order node array, as a structural
predicate: `ValidForest t lo hi` states that the records at indices
`[lo, hi)` form a post-order forest — a (possibly empty) sequence of trees in
which the last tree occupies `[mid, hi)`, its root is the record at `hi - 1`
with `subtree_size = hi - mid`, and its children form the forest at
`[mid, hi - 1)`.  This is exactly the invariant `spec.md` §3 states: every
node at index `i` with `subtree_size = s` has its subtree at indices
`[i - s + 1, i]`. -/
inductive ValidForest (t : ParseTree) : Nat → Nat → Prop
  | nil (lo : Nat) : ValidForest t lo lo
  | snoc (lo mid hi : Nat) (hmid : lo ≤ mid) (hlt : mid < hi)
      (hroot : subtreeSizeAt t (hi - 1) = hi - mid)
      (hleft : ValidForest t lo mid)
      (hsub : ValidForest t mid (hi - 1)) : ValidForest t lo hi

/-! ## Specification-side definitions and concrete inputs used by the claims -/

/-- Specification-side encoded exponent of a real literal: the exponent-part
digits (separators removed) read in base 10, with the consumed sign, and 0
when the exponent sub-expression is absent. -/
def numEncodedExponent (p : NumParser) : Int :=
  if p.exponent_part.isEmpty then 0
  else (if p.exponent_is_negative then -1 else 1) *
    (natOfDigits 10 (stripSeparators p.exponent_part) : Int)

/-- Specification-side fractional digit compensation: `fract_len` for radix
10 (and 2), `4 × fract_len` for radix 16. -/
def numExponentComp (p : NumParser) : Int :=
  (if p.radix = 16 then 4 else 1) * (p.fract_part.length : Int)

/-- A digit sequence with uniformly placed separators: the groups joined by
single underscores. -/
def separatorGroupedText (g : List Char) (gs : List (List Char)) : List Char :=
  g ++ (gs.map (fun h => '_' :: h)).join

/-- The lexeme `0b1.01` (radix point at offset 3, no exponent marker). -/
def numLitBinaryReal : LexedNumericLiteral := ⟨"0b1.01".toList, 3, 6⟩

/-- The lexeme `0x1.8p4` (radix point at offset 3, exponent marker at 5). -/
def numLitHexReal : LexedNumericLiteral := ⟨"0x1.8p4".toList, 3, 5⟩

/-- The lexeme `1.5e2` (radix point at offset 1, exponent marker at 3). -/
def numLitDecReal : LexedNumericLiteral := ⟨"1.5e2".toList, 1, 3⟩

/-- The lexeme `1_000` (no radix point, no exponent marker). -/
def numLitThousand : LexedNumericLiteral := ⟨"1_000".toList, 5, 5⟩

/-- The lexeme `1_` (no radix point, no exponent marker). -/
def numLitTrailingSep : LexedNumericLiteral := ⟨"1_".toList, 2, 2⟩

/-- The lexeme `0xFF_FF_FF` (no radix point, no exponent marker). -/
def numLitHexInt : LexedNumericLiteral := ⟨"0xFF_FF_FF".toList, 10, 10⟩

/-- Source text of the raw string `#"a\n"#`. -/
def strSourceRaw : List Char := "#\"a\\n\"#".toList

/-- Source text of the simple string `"\u{110000}"` (code point above
0x10FFFF). -/
def strSourceTooLarge : List Char := "\"\\u\x7b110000\x7d\"".toList

/-- Source text of the multi-line string `"""`, newline, two spaces and
`hello`, newline, two spaces and `"""`. -/
def strSourceMulti : List Char := "\"\"\"\n  hello\n  \"\"\"".toList

/-- The lexed form of `strSourceRaw`: content `a\n`, hash level 1,
single-line, terminated. -/
def strRawLit : LexedStringLiteral :=
  ⟨strSourceRaw, ['a', '\\', 'n'], 1, false, true⟩

/-- The lexed form of `strSourceTooLarge`: content `\u\x7b110000\x7d`,
hash level 0, single-line, terminated. -/
def strTooLargeLit : LexedStringLiteral :=
  ⟨strSourceTooLarge, "\\u\x7b110000\x7d".toList, 0, false, true⟩

/-- The lexed form of `strSourceMulti`: content from after the opening
newline up to the closing `"""`, hash level 0, multi-line, terminated. -/
def strMultiLit : LexedStringLiteral :=
  ⟨strSourceMulti, "  hello\n  ".toList, 0, true, true⟩

/-- The four-record post-order array of `spec.md` §8 scenario 9: three
leaves followed by an interior node whose subtree covers all four records. -/
def parseTreeExample : ParseTree :=
  [⟨0, 0, 1, false⟩, ⟨0, 1, 1, false⟩, ⟨0, 2, 1, false⟩, ⟨1, 3, 4, false⟩]

/-! ## Basic lemmas about the numeric-literal checks -/

theorem validDigit_not_underscore (radix : Nat) : validDigit radix '_' = false := by
  unfold validDigit
  split_ifs <;> decide

theorem validDigit_not_dot (radix : Nat) : validDigit radix '.' = false := by
  unfold validDigit
  split_ifs <;> decide

/-- A character the radix-2/10/16 bitset accepts, other than the stray NUL,
has a digit value below the radix. -/
theorem validDigit_digitVal {radix : Nat} {c : Char}
    (hr : radix = 2 ∨ radix = 10 ∨ radix = 16)
    (hc : validDigit radix c = true) (hn : c ≠ Char.ofNat 0) :
    ∃ v, digitVal c = some v ∧ v < radix := by
  rcases hr with rfl | rfl | rfl
  · simp [validDigit, List.contains] at hc
    rcases hc with rfl | rfl | rfl
    · exact ⟨0, by decide, by decide⟩
    · exact ⟨1, by decide, by decide⟩
    · exact absurd rfl hn
  · simp [validDigit, List.contains] at hc
    rcases hc with rfl | rfl | rfl | rfl | rfl | rfl | rfl | rfl | rfl | rfl | rfl
    all_goals first
      | exact absurd rfl hn
      | exact ⟨_, rfl, by decide⟩
  · simp [validDigit, List.contains] at hc
    rcases hc with rfl | rfl | rfl | rfl | rfl | rfl | rfl | rfl | rfl | rfl | rfl |
      rfl | rfl | rfl | rfl | rfl | rfl
    all_goals first
      | exact absurd rfl hn
      | exact ⟨_, rfl, by decide⟩

/-- Unfolding `cdsLoop` on a valid digit. -/
theorem cdsLoop_cons_valid {radix : Nat} {allow : Bool} {c : Char}
    (hv : validDigit radix c = true) (prev : Option Char) (rest : List Char) :
    cdsLoop radix allow prev (c :: rest) =
      ((cdsLoop radix allow (some c) rest).1, (cdsLoop radix allow (some c) rest).2.1,
        (cdsLoop radix allow (some c) rest).2.2) := by
  conv_lhs => unfold cdsLoop
  rw [if_pos hv]

/-- Unfolding `cdsLoop` on an underscore: the separator count goes up and a
misplaced separator is diagnosed. -/
theorem cdsLoop_cons_underscore {radix : Nat} {allow : Bool}
    (prev : Option Char) (rest : List Char) :
    cdsLoop radix allow prev ('_' :: rest) =
      ((cdsLoop radix allow (some '_') rest).1,
        (cdsLoop radix allow (some '_') rest).2.1 + 1,
        (if (!allow || prev = none || prev = some '_' || rest = [])
          then [Diag.InvalidDigitSeparator] else []) ++
          (cdsLoop radix allow (some '_') rest).2.2) := by
  conv_lhs => unfold cdsLoop
  rw [if_neg (by simp [validDigit_not_underscore]), if_pos rfl]

/-- Unfolding `cdsLoop` on an invalid digit. -/
theorem cdsLoop_cons_invalid {radix : Nat} {allow : Bool} {c : Char}
    (hv : validDigit radix c = false) (hu : c ≠ '_')
    (prev : Option Char) (rest : List Char) :
    cdsLoop radix allow prev (c :: rest) = (false, 0, [Diag.InvalidDigit c radix]) := by
  conv_lhs => unfold cdsLoop
  rw [if_neg (by simp [hv]), if_neg hu]

/-- When the digit-sequence loop succeeds, every character was a valid digit
or an underscore. -/
theorem cdsLoop_ok_mem {radix : Nat} {allow : Bool} :
    ∀ {text : List Char} {prev : Option Char},
      (cdsLoop radix allow prev text).1 = true →
      ∀ c ∈ text, validDigit radix c = true ∨ c = '_' := by
  intro text
  induction text with
  | nil => intro prev _ c hc; cases hc
  | cons c rest ih =>
    intro prev hok d hd
    by_cases hv : validDigit radix c = true
    · rw [cdsLoop_cons_valid hv] at hok
      rcases List.mem_cons.mp hd with rfl | hd
      · exact Or.inl hv
      · exact ih hok d hd
    · by_cases hu : c = '_'
      · subst hu
        rw [cdsLoop_cons_underscore] at hok
        rcases List.mem_cons.mp hd with rfl | hd
        · exact Or.inr rfl
        · exact ih hok d hd
      · rw [cdsLoop_cons_invalid (Bool.not_eq_true _ ▸ hv) hu] at hok
        cases hok

/-- Every character valid-or-underscore makes the digit-sequence loop
succeed. -/
theorem cdsLoop_ok_of_valid {radix : Nat} {allow : Bool} :
    ∀ {text : List Char} (_ : ∀ c ∈ text, validDigit radix c = true ∨ c = '_')
      (prev : Option Char), (cdsLoop radix allow prev text).1 = true := by
  intro text
  induction text with
  | nil => intro _ prev; simp [cdsLoop]
  | cons c rest ih =>
    intro hall prev
    have hrest : ∀ d ∈ rest, validDigit radix d = true ∨ d = '_' :=
      fun d hd => hall d (by simp [hd])
    rcases hall c (by simp) with hv | rfl
    · rw [cdsLoop_cons_valid hv]
      exact ih hrest (some c)
    · rw [cdsLoop_cons_underscore]
      exact ih hrest (some '_')

/-- When every character is a valid digit or underscore, the separator count
of the loop is the number of underscores. -/
theorem cdsLoop_count_of_valid {radix : Nat} {allow : Bool} :
    ∀ {text : List Char} (_ : ∀ c ∈ text, validDigit radix c = true ∨ c = '_')
      (prev : Option Char), (cdsLoop radix allow prev text).2.1 = text.count '_' := by
  intro text
  induction text with
  | nil => intro _ prev; simp [cdsLoop]
  | cons c rest ih =>
    intro hall prev
    have hrest : ∀ d ∈ rest, validDigit radix d = true ∨ d = '_' :=
      fun d hd => hall d (by simp [hd])
    rcases hall c (by simp) with hv | rfl
    · have hcu : c ≠ '_' := by
        intro h; rw [h, validDigit_not_underscore] at hv; cases hv
      rw [cdsLoop_cons_valid hv]
      rw [ih hrest (some c)]
      simp [List.count_cons, hcu]
    · rw [cdsLoop_cons_underscore]
      rw [ih hrest (some '_')]
      simp [List.count_cons]

/-- The digit-sequence loop never emits `IrregularDigitSeparators`. -/
theorem cdsLoop_no_irregular {radix : Nat} {allow : Bool} :
    ∀ {text : List Char} (prev : Option Char) (r : Nat),
      Diag.IrregularDigitSeparators r ∉ (cdsLoop radix allow prev text).2.2 := by
  intro text
  induction text with
  | nil => intro prev r; simp [cdsLoop]
  | cons c rest ih =>
    intro prev r
    by_cases hv : validDigit radix c = true
    · rw [cdsLoop_cons_valid hv]
      exact ih (some c) r
    · by_cases hu : c = '_'
      · subst hu
        rw [cdsLoop_cons_underscore]
        intro hmem
        rcases List.mem_append.mp hmem with h1 | h2
        · split at h1 <;> simp_all
        · exact ih (some '_') r h2
      · rw [cdsLoop_cons_invalid (Bool.not_eq_true _ ▸ hv) hu]
        simp

/-- Parsing a digit string whose characters all have digit values below the
radix yields the positional fold from the given accumulator. -/
theorem parseDigitsLoop_eq_fold {radix : Nat} :
    ∀ {ds : List Char}
      (_ : ∀ c ∈ ds, ∃ v, digitVal c = some v ∧ v < radix) (acc : Nat),
      parseDigitsLoop radix acc ds =
        some (ds.foldl (fun a c => a * radix + (digitVal c).getD 0) acc) := by
  intro ds
  induction ds with
  | nil => intro _ acc; simp [parseDigitsLoop]
  | cons c rest ih =>
    intro hall acc
    obtain ⟨v, hv, hlt⟩ := hall c (by simp)
    unfold parseDigitsLoop
    rw [hv]
    simp only [hlt, if_pos]
    rw [ih (fun d hd => hall d (by simp [hd])) (acc * radix + v)]
    simp [hv]

/-- The value of a digit string is bounded by `radix ^ length`. -/
theorem natOfDigits_lt {radix : Nat} (hr : 0 < radix) :
    ∀ {ds : List Char} (_ : ∀ c ∈ ds, (digitVal c).getD 0 < radix),
      natOfDigits radix ds < radix ^ ds.length := by
  have key : ∀ (ds : List Char) (acc : Nat),
      (∀ c ∈ ds, (digitVal c).getD 0 < radix) →
      ds.foldl (fun a c => a * radix + (digitVal c).getD 0) acc <
        (acc + 1) * radix ^ ds.length := by
    intro ds
    induction ds with
    | nil => intro acc _; simpa using Nat.lt_succ_self acc
    | cons c rest ih =>
      intro acc hall
      simp only [List.foldl_cons, List.length_cons]
      calc List.foldl (fun a c => a * radix + (digitVal c).getD 0)
            (acc * radix + (digitVal c).getD 0) rest
          < (acc * radix + (digitVal c).getD 0 + 1) * radix ^ rest.length :=
            ih _ (fun d hd => hall d (by simp [hd]))
        _ ≤ ((acc + 1) * radix) * radix ^ rest.length := by
            have h1 : (digitVal c).getD 0 < radix := hall c (by simp)
            have : acc * radix + (digitVal c).getD 0 + 1 ≤ (acc + 1) * radix := by
              nlinarith
            exact Nat.mul_le_mul_right _ this
        _ = (acc + 1) * radix ^ (rest.length + 1) := by ring
  intro ds hall
  have h := key ds 0 hall
  simpa [natOfDigits] using h

/-- What a successful `CheckDigitSequence` guarantees: the loop succeeded,
the characters are valid digits or underscores, not every character is an
underscore (so the text is nonempty), and the `has_digit_separators` flag
reflects the presence of underscores. -/
theorem CheckDigitSequence_ok {radix : Nat} {allow : Bool} {text : List Char}
    (h : (CheckDigitSequence radix allow text).1 = true) :
    (∀ c ∈ text, validDigit radix c = true ∨ c = '_') ∧
    text.count '_' ≠ text.length ∧
    text ≠ [] ∧
    (CheckDigitSequence radix allow text).2.1 = decide (text.count '_' ≠ 0) := by
  unfold CheckDigitSequence at h ⊢
  dsimp only at h ⊢
  rcases Bool.eq_false_or_eq_true ((cdsLoop radix allow none text).1) with hok | hok
  case inr => rw [hok] at h; simp at h
  case inl =>
    have hall := @cdsLoop_ok_mem radix allow text none hok
    have hcnt := @cdsLoop_count_of_valid radix allow text hall none
    rw [hok] at h ⊢
    rw [hcnt] at h ⊢
    simp only [Bool.not_true, Bool.false_eq_true, if_false] at h ⊢
    by_cases hlen : text.count '_' = text.length
    · rw [if_pos hlen] at h; simp at h
    · rw [if_neg hlen] at h ⊢
      refine ⟨hall, hlen, ?_, ?_⟩
      · intro hnil
        subst hnil
        simp at hlen
      · by_cases hz : text.count '_' ≠ 0
        · rw [if_pos hz]; simp [hz]
        · rw [if_neg hz]; simp at hz; simp [hz]

/-- A successful `CheckDigitSequence` also tells which diagnostics were
emitted: the loop diagnostics followed by the placement diagnostics (when
separators occurred). -/
theorem CheckDigitSequence_ok_diags {radix : Nat} {allow : Bool} {text : List Char}
    (h : (CheckDigitSequence radix allow text).1 = true) :
    (CheckDigitSequence radix allow text).2.2 =
      (cdsLoop radix allow none text).2.2 ++
        (if text.count '_' ≠ 0 then CheckDigitSeparatorPlacement text radix (text.count '_')
         else []) := by
  unfold CheckDigitSequence at h ⊢
  dsimp only at h ⊢
  rcases Bool.eq_false_or_eq_true ((cdsLoop radix allow none text).1) with hok | hok
  case inr => rw [hok] at h; simp at h
  case inl =>
    have hall := @cdsLoop_ok_mem radix allow text none hok
    have hcnt := @cdsLoop_count_of_valid radix allow text hall none
    rw [hok] at h ⊢
    rw [hcnt] at h ⊢
    simp only [Bool.not_true, Bool.false_eq_true, if_false] at h ⊢
    by_cases hlen : text.count '_' = text.length
    · rw [if_pos hlen] at h; simp at h
    · rw [if_neg hlen] at h ⊢
      by_cases hz : text.count '_' ≠ 0
      · rw [if_pos hz, if_pos hz]
      · rw [if_neg hz, if_neg hz]
        simp

/-- `ParseInteger` with cleaning, on digits whose cleaned form is nonempty
and consists of in-range digit characters. -/
theorem ParseInteger_true_parse {radix : Nat} {ds : List Char}
    (hvals : ∀ c ∈ ds.filter (fun c => !(c = '_' || c = '.')),
      ∃ v, digitVal c = some v ∧ v < radix)
    (hne : ds.filter (fun c => !(c = '_' || c = '.')) ≠ []) :
    ParseInteger ds radix true =
      some (natOfDigits radix (ds.filter (fun c => !(c = '_' || c = '.')))) := by
  unfold ParseInteger
  dsimp only
  simp only [eq_self_iff_true, if_true]
  rw [if_neg (by simpa [List.isEmpty_iff] using hne)]
  rw [parseDigitsLoop_eq_fold hvals 0]
  rfl

/-- `ParseInteger` without cleaning, on nonempty in-range digits. -/
theorem ParseInteger_false_parse {radix : Nat} {ds : List Char}
    (hvals : ∀ c ∈ ds, ∃ v, digitVal c = some v ∧ v < radix)
    (hne : ds ≠ []) :
    ParseInteger ds radix false = some (natOfDigits radix ds) := by
  unfold ParseInteger
  dsimp only
  simp only [Bool.false_eq_true, if_false]
  rw [if_neg (by simpa [List.isEmpty_iff] using hne)]
  rw [parseDigitsLoop_eq_fold hvals 0]
  rfl

/-- On a dot-free string, the mantissa cleaning filter agrees with plain
separator stripping. -/
theorem filter_clean_eq_strip {ds : List Char} (hnd : '.' ∉ ds) :
    ds.filter (fun c => !(c = '_' || c = '.')) = stripSeparators ds := by
  unfold stripSeparators
  apply List.filter_congr
  intro c hc
  have hcd : c ≠ '.' := fun h => hnd (h ▸ hc)
  by_cases hu : c = '_' <;> simp [hu, hcd]

/-- A string without underscores is unchanged by separator stripping. -/
theorem strip_of_count_zero {ds : List Char} (h : ds.count '_' = 0) :
    stripSeparators ds = ds := by
  unfold stripSeparators
  rw [List.filter_eq_self]
  intro c hc
  have := List.count_eq_zero.mp h
  simp only [decide_eq_true_eq]
  intro hcu
  exact this (hcu ▸ hc)

/-- Separator stripping keeps at least one character when not every
character is an underscore. -/
theorem strip_ne_nil {ds : List Char} (h : ds.count '_' ≠ ds.length) :
    stripSeparators ds ≠ [] := by
  unfold stripSeparators
  intro hnil
  apply h
  have hall := List.filter_eq_nil.mp hnil
  have : ∀ c ∈ ds, c = '_' := by
    intro c hc
    have := hall c hc
    simpa using this
  calc ds.count '_' = ds.length := by
        rw [List.count_eq_length]
        intro c hc
        simp [this c hc]

/-- The radix detected by the parser constructor is 2, 10 or 16. -/
theorem parserInit_radix_cases (lit : LexedNumericLiteral) :
    (parserInit lit).radix = 2 ∨ (parserInit lit).radix = 10 ∨
      (parserInit lit).radix = 16 := by
  simp only [parserInit]
  split_ifs <;> simp

theorem parserInit_lit (lit : LexedNumericLiteral) : (parserInit lit).lit = lit := by
  simp [parserInit]

/-- Every character of the integer part comes from the lexeme text. -/
theorem parserInit_int_subset {lit : LexedNumericLiteral} {c : Char}
    (hc : c ∈ (parserInit lit).int_part) : c ∈ lit.text := by
  simp only [parserInit] at hc
  split_ifs at hc <;>
    first
      | exact List.take_subset _ _ (List.drop_subset _ _ hc)
      | exact List.take_subset _ _ hc

/-- Every character of the fractional part comes from the lexeme text. -/
theorem parserInit_fract_subset {lit : LexedNumericLiteral} {c : Char}
    (hc : c ∈ (parserInit lit).fract_part) : c ∈ lit.text := by
  simp only [parserInit] at hc
  exact List.drop_subset _ _ (List.take_subset _ _ hc)

/-- Every character of the exponent part comes from the lexeme text. -/
theorem parserInit_exp_subset {lit : LexedNumericLiteral} {c : Char}
    (hc : c ∈ (parserInit lit).exponent_part) : c ∈ lit.text := by
  simp only [parserInit] at hc
  split_ifs at hc <;>
    first
      | exact List.drop_subset _ _ (List.drop_subset _ _ hc)
      | exact List.drop_subset _ _ hc

/-- When the lexeme has no exponent marker, the exponent part is empty and
the sign is positive. -/
theorem parserInit_exp_empty {lit : LexedNumericLiteral}
    (h : lit.exponent = lit.text.length) :
    (parserInit lit).exponent_part = [] ∧
      (parserInit lit).exponent_is_negative = false := by
  have hdrop : lit.text.drop (lit.exponent + 1) = [] :=
    List.drop_eq_nil_of_le (by omega)
  simp [parserInit, hdrop]

/-- A passing leading-zero check emits nothing. -/
theorem CheckLeadingZero_ok {radix : Nat} {int_part : List Char}
    (h : (CheckLeadingZero radix int_part).1 = true) :
    (CheckLeadingZero radix int_part).2 = [] := by
  unfold CheckLeadingZero at h ⊢
  split at h
  · simp at h
  · split
    · simp_all
    · rfl

/-- Decomposition of a successful `Check` on an integer literal. -/
theorem check_ok_int {p : NumParser} (h : p.Check.1 = true) (hint : p.IsInteger = true) :
    (CheckDigitSequence p.radix true p.int_part).1 = true ∧
    p.CheckExponentPart.1 = true ∧
    p.Check.2.1 = (CheckDigitSequence p.radix true p.int_part).2.1 ∧
    p.Check.2.2.1 = p.CheckExponentPart.2.1 ∧
    p.Check.2.2.2 = (CheckDigitSequence p.radix true p.int_part).2.2 ++
      p.CheckExponentPart.2.2 := by
  unfold NumParser.Check at h ⊢
  dsimp only at h ⊢
  rcases Bool.eq_false_or_eq_true (CheckLeadingZero p.radix p.int_part).1 with hlz | hlz
  case inr => rw [hlz] at h; simp at h
  case inl =>
    have hlz2 := CheckLeadingZero_ok hlz
    rw [hlz, hlz2] at h ⊢
    simp only [Bool.not_true, Bool.false_eq_true, if_false] at h ⊢
    rcases Bool.eq_false_or_eq_true (CheckDigitSequence p.radix true p.int_part).1
      with hir | hir
    case inr => rw [hir] at h; simp at h
    case inl =>
      rw [hir] at h ⊢
      rw [hint] at h ⊢
      simp only [Bool.not_true, Bool.false_eq_true, if_false, if_true] at h ⊢
      simp [h]

/-- Decomposition of a successful `Check` on a real literal (a lexeme with a
radix point): all digit checks passed, the mantissa always needs cleaning,
and the diagnostics include `BinaryRealLiteral` exactly when the radix is
2. -/
theorem check_ok_real {p : NumParser} (h : p.Check.1 = true) (hint : p.IsInteger = false) :
    (CheckDigitSequence p.radix true p.int_part).1 = true ∧
    (CheckDigitSequence p.radix false p.fract_part).1 = true ∧
    p.CheckExponentPart.1 = true ∧
    p.Check.2.1 = true ∧
    p.Check.2.2.1 = p.CheckExponentPart.2.1 ∧
    p.Check.2.2.2 = (CheckDigitSequence p.radix true p.int_part).2.2 ++
      (if p.radix = 2 then [Diag.BinaryRealLiteral] else []) ++
      (CheckDigitSequence p.radix false p.fract_part).2.2 ++
      p.CheckExponentPart.2.2 := by
  unfold NumParser.Check at h ⊢
  dsimp only at h ⊢
  rcases Bool.eq_false_or_eq_true (CheckLeadingZero p.radix p.int_part).1 with hlz | hlz
  case inr => rw [hlz] at h; simp at h
  case inl =>
    have hlz2 := CheckLeadingZero_ok hlz
    rw [hlz, hlz2] at h ⊢
    simp only [Bool.not_true, Bool.false_eq_true, if_false] at h ⊢
    rcases Bool.eq_false_or_eq_true (CheckDigitSequence p.radix true p.int_part).1
      with hir | hir
    case inr => rw [hir] at h; simp at h
    case inl =>
      rw [hir] at h ⊢
      rw [hint] at h ⊢
      simp only [Bool.not_true, Bool.false_eq_true, if_false] at h ⊢
      rcases Bool.eq_false_or_eq_true (CheckDigitSequence p.radix false p.fract_part).1
        with hfr | hfr
      case inr => rw [hfr] at h; simp at h
      case inl =>
        rw [hfr] at h ⊢
        simp only [Bool.not_true, Bool.false_eq_true, if_false] at h ⊢
        simp [h]

/-- Decomposition of a successful exponent-part check. -/
theorem checkExp_ok {p : NumParser} (h : p.CheckExponentPart.1 = true) :
    (p.lit.exponent = p.lit.text.length ∧ p.CheckExponentPart.2.1 = false ∧
      p.CheckExponentPart.2.2 = []) ∨
    (p.lit.exponent ≠ p.lit.text.length ∧
      (CheckDigitSequence 10 true p.exponent_part).1 = true ∧
      p.CheckExponentPart.2.1 = (CheckDigitSequence 10 true p.exponent_part).2.1 ∧
      p.CheckExponentPart.2.2 = (CheckDigitSequence 10 true p.exponent_part).2.2) := by
  unfold NumParser.CheckExponentPart at h ⊢
  dsimp only at h ⊢
  by_cases hmark : p.lit.exponent = p.lit.text.length
  · rw [if_pos hmark]
    exact Or.inl ⟨hmark, rfl, rfl⟩
  · rw [if_neg hmark] at h ⊢
    by_cases hc : p.lit.text.getD p.lit.exponent (Char.ofNat 0) ≠
        (if p.radix = 10 then 'e' else 'p')
    · rw [if_pos hc] at h; simp at h
    · rw [if_neg hc] at h ⊢
      exact Or.inr ⟨hmark, h, rfl, rfl⟩

/-- `'.'` is not accepted by any digit bitset, nor is it an underscore. -/
theorem no_dot_of_valid {radix : Nat} {l : List Char}
    (hall : ∀ c ∈ l, validDigit radix c = true ∨ c = '_') : '.' ∉ l := by
  intro hd
  rcases hall '.' hd with hv | hv
  · rw [validDigit_not_dot] at hv; cases hv
  · cases hv

/-- Membership in a separator-stripped list. -/
theorem mem_strip {l : List Char} {c : Char} (hc : c ∈ stripSeparators l) :
    c ∈ l ∧ c ≠ '_' := by
  unfold stripSeparators at hc
  have := List.mem_filter.mp hc
  simpa using this

/-- In-range digit values for all characters of a checked digit sequence with
its separators stripped. -/
theorem strip_vals {radix : Nat} {l : List Char}
    (hr : radix = 2 ∨ radix = 10 ∨ radix = 16)
    (hall : ∀ c ∈ l, validDigit radix c = true ∨ c = '_')
    (hnul : Char.ofNat 0 ∉ l) :
    ∀ c ∈ stripSeparators l, ∃ v, digitVal c = some v ∧ v < radix := by
  intro c hc
  obtain ⟨hcm, hcu⟩ := mem_strip hc
  rcases hall c hcm with hv | hv
  · exact validDigit_digitVal hr hv (fun h0 => hnul (h0 ▸ hcm))
  · exact absurd hv hcu

/-- Claim C3 (confirmed).  For every integer literal (lexeme without a radix
point) that validates successfully, `ComputeValue` returns `Integer v` where
`v` is the value of the integer-part digits with underscores removed, read in
the radix the parser constructor detected (16 after `0x`, 2 after `0b`, 10
otherwise). -/
theorem claim_integer_value (lit : LexedNumericLiteral)
    (hn : Char.ofNat 0 ∉ lit.text)
    (hok : (parserInit lit).Check.1 = true)
    (hint : (parserInit lit).IsInteger = true) :
    (lit.ComputeValue).1 = some (NumValue.integer
      (natOfDigits (parserInit lit).radix (stripSeparators (parserInit lit).int_part))) := by
  obtain ⟨hir, hex, hmnc, henc, hds⟩ := check_ok_int hok hint
  obtain ⟨hall, hcnt, hne, hflag⟩ := CheckDigitSequence_ok hir
  have hrad := parserInit_radix_cases lit
  have hnul : Char.ofNat 0 ∉ (parserInit lit).int_part :=
    fun h0 => hn (parserInit_int_subset h0)
  have hvals := strip_vals hrad hall hnul
  have hnem : stripSeparators (parserInit lit).int_part ≠ [] := strip_ne_nil hcnt
  have hmant : (parserInit lit).GetMantissa ((parserInit lit).Check.2.1) =
      some (natOfDigits (parserInit lit).radix
        (stripSeparators (parserInit lit).int_part)) := by
    unfold NumParser.GetMantissa
    dsimp only
    rw [hint]
    simp only [if_true, eq_self_iff_true]
    rw [hmnc, hflag]
    by_cases hz : (parserInit lit).int_part.count '_' ≠ 0
    · rw [decide_eq_true hz]
      have hnd : '.' ∉ (parserInit lit).int_part := no_dot_of_valid hall
      have heq := @filter_clean_eq_strip (parserInit lit).int_part hnd
      rw [ParseInteger_true_parse (by rw [heq]; exact hvals) (by rw [heq]; exact hnem)]
      rw [heq]
    · rw [decide_eq_false hz]
      have hz2 : (parserInit lit).int_part.count '_' = 0 := by omega
      have hstr := strip_of_count_zero hz2
      rw [ParseInteger_false_parse (fun c hc => hvals c (by rw [hstr]; exact hc))
        (by rw [← hstr]; exact hnem)]
      rw [hstr]
  unfold LexedNumericLiteral.ComputeValue
  dsimp only
  rw [hok, hint]
  simp only [Bool.not_true, Bool.false_eq_true, if_false, if_true, eq_self_iff_true]
  rw [hmant]

/-- The separator-stripped mantissa span of a real literal: the radix point
is removed by cleaning and the integer- and fractional-part digits remain. -/
theorem clean_real_span {radix : Nat} {a b : List Char}
    (ha : ∀ c ∈ a, validDigit radix c = true ∨ c = '_')
    (hb : ∀ c ∈ b, validDigit radix c = true ∨ c = '_') :
    (a ++ ['.'] ++ b).filter (fun c => !(c = '_' || c = '.')) =
      stripSeparators (a ++ b) := by
  rw [List.filter_append, List.filter_append]
  rw [filter_clean_eq_strip (no_dot_of_valid ha), filter_clean_eq_strip (no_dot_of_valid hb)]
  unfold stripSeparators
  rw [List.filter_append]
  simp

/-- The value `GetExponent` computes for a checked literal: the
specification-side encoded exponent minus the fractional compensation. -/
theorem getExponent_spec (lit : LexedNumericLiteral)
    (hn : Char.ofNat 0 ∉ lit.text)
    (hex : (parserInit lit).CheckExponentPart.1 = true)
    (henc : (parserInit lit).Check.2.2.1 = (parserInit lit).CheckExponentPart.2.1) :
    (parserInit lit).GetExponent ((parserInit lit).Check.2.2.1) =
      some (numEncodedExponent (parserInit lit) - numExponentComp (parserInit lit)) := by
  rcases checkExp_ok hex with ⟨hmark, hencf, _⟩ | ⟨hmark, hcds, hencf, _⟩
  · rw [parserInit_lit] at hmark
    obtain ⟨hep, hneg⟩ := parserInit_exp_empty hmark
    unfold NumParser.GetExponent numEncodedExponent numExponentComp
    dsimp only
    rw [hep]
    simp only [List.isEmpty_nil, if_true]
    simp [mul_comm]
  · obtain ⟨halle, hcnte, hnee, hflage⟩ := CheckDigitSequence_ok hcds
    have hnule : Char.ofNat 0 ∉ (parserInit lit).exponent_part :=
      fun h0 => hn (parserInit_exp_subset h0)
    have hvalse := strip_vals (Or.inr (Or.inl rfl)) halle hnule
    have hneme : stripSeparators (parserInit lit).exponent_part ≠ [] := strip_ne_nil hcnte
    have hparse : ParseInteger (parserInit lit).exponent_part 10
        ((parserInit lit).Check.2.2.1) =
        some (natOfDigits 10 (stripSeparators (parserInit lit).exponent_part)) := by
      rw [henc, hencf, hflage]
      by_cases hz : (parserInit lit).exponent_part.count '_' ≠ 0
      · rw [decide_eq_true hz]
        have hnd : '.' ∉ (parserInit lit).exponent_part := no_dot_of_valid halle
        have heq := @filter_clean_eq_strip (parserInit lit).exponent_part hnd
        rw [ParseInteger_true_parse (by rw [heq]; exact hvalse) (by rw [heq]; exact hneme)]
        rw [heq]
      · rw [decide_eq_false hz]
        have hz2 : (parserInit lit).exponent_part.count '_' = 0 := by omega
        have hstr := strip_of_count_zero hz2
        rw [ParseInteger_false_parse (fun c hc => hvalse c (by rw [hstr]; exact hc))
          (by rw [← hstr]; exact hneme)]
        rw [hstr]
    unfold NumParser.GetExponent numEncodedExponent numExponentComp
    dsimp only
    rw [hparse]
    have hepne : (parserInit lit).exponent_part.isEmpty = false := by
      simpa [List.isEmpty_iff] using hnee
    rw [hepne]
    simp only [Bool.false_eq_true, if_false, Option.map_some]
    by_cases hs : (parserInit lit).exponent_is_negative = true
    · simp [hs, mul_comm]
    · have hs2 : (parserInit lit).exponent_is_negative = false := by
        cases h : (parserInit lit).exponent_is_negative
        · rfl
        · exact absurd h hs
      simp [hs2, mul_comm]

/-- The value `ComputeValue` produces for every real literal (lexeme with a
radix point) that validates successfully, in specification terms: the radix
is 10 only for source radix 10, the mantissa is the integer- and
fractional-part digits with separators stripped read in the source radix, and
the exponent is the encoded exponent minus the fractional compensation. -/
theorem computeValue_real_spec (lit : LexedNumericLiteral)
    (hn : Char.ofNat 0 ∉ lit.text)
    (hlen : lit.radix_point ≤ lit.text.length)
    (hdot : lit.radix_point < lit.text.length →
      lit.text.getD lit.radix_point (Char.ofNat 0) = '.')
    (hok : (parserInit lit).Check.1 = true)
    (hreal : (parserInit lit).IsInteger = false) :
    (lit.ComputeValue).1 = some (NumValue.real
      (if (parserInit lit).radix = 10 then 10 else 2)
      (natOfDigits (parserInit lit).radix
        (stripSeparators ((parserInit lit).int_part ++ (parserInit lit).fract_part)))
      (numEncodedExponent (parserInit lit) - numExponentComp (parserInit lit))) := by
  obtain ⟨hir, hfr, hex, hmnc, henc, hds⟩ := check_ok_real hok hreal
  obtain ⟨halli, hcnti, hnei, hflagi⟩ := CheckDigitSequence_ok hir
  obtain ⟨hallf, hcntf, hnef, hflagf⟩ := CheckDigitSequence_ok hfr
  have hrad := parserInit_radix_cases lit
  have hrp : lit.radix_point < lit.text.length := by
    unfold NumParser.IsInteger at hreal
    rw [parserInit_lit] at hreal
    simp only [decide_eq_false_iff_not] at hreal
    omega
  have hdotc := hdot hrp
  have hnuli : Char.ofNat 0 ∉ (parserInit lit).int_part :=
    fun h0 => hn (parserInit_int_subset h0)
  have hnulf : Char.ofNat 0 ∉ (parserInit lit).fract_part :=
    fun h0 => hn (parserInit_fract_subset h0)
  have hvals : ∀ c ∈ stripSeparators ((parserInit lit).int_part ++
      (parserInit lit).fract_part), ∃ v, digitVal c = some v ∧ v < (parserInit lit).radix := by
    intro c hc
    obtain ⟨hcm, hcu⟩ := mem_strip hc
    rcases List.mem_append.mp hcm with hm | hm
    · rcases halli c hm with hv | hv
      · exact validDigit_digitVal hrad hv (fun h0 => hnuli (h0 ▸ hm))
      · exact absurd hv hcu
    · rcases hallf c hm with hv | hv
      · exact validDigit_digitVal hrad hv (fun h0 => hnulf (h0 ▸ hm))
      · exact absurd hv hcu
  have hnem : stripSeparators ((parserInit lit).int_part ++
      (parserInit lit).fract_part) ≠ [] := by
    intro hnil
    apply strip_ne_nil hcnti
    unfold stripSeparators at hnil ⊢
    rw [List.filter_append] at hnil
    exact List.append_eq_nil.mp hnil |>.1
  have hclean := clean_real_span halli hallf
  have hmant : (parserInit lit).GetMantissa ((parserInit lit).Check.2.1) =
      some (natOfDigits (parserInit lit).radix
        (stripSeparators ((parserInit lit).int_part ++ (parserInit lit).fract_part))) := by
    unfold NumParser.GetMantissa
    dsimp only
    rw [hreal]
    simp only [Bool.false_eq_true, if_false]
    rw [parserInit_lit, hdotc, hmnc]
    rw [ParseInteger_true_parse (by rw [hclean]; exact hvals) (by rw [hclean]; exact hnem)]
    rw [hclean]
  have hexp := getExponent_spec lit hn hex henc
  unfold LexedNumericLiteral.ComputeValue
  dsimp only
  rw [hok, hreal]
  simp only [Bool.not_true, Bool.false_eq_true, if_false]
  rw [hmant, hexp]

/-- In the successful path, the diagnostics of `ComputeValue` are exactly the
diagnostics of `Check`. -/
theorem computeValue_diags_of_ok (lit : LexedNumericLiteral)
    (hok : (parserInit lit).Check.1 = true) :
    (lit.ComputeValue).2 = (parserInit lit).Check.2.2.2 := by
  unfold LexedNumericLiteral.ComputeValue
  dsimp only
  rw [hok]
  simp only [Bool.not_true, Bool.false_eq_true, if_false]
  by_cases hint : (parserInit lit).IsInteger = true
  · rw [hint]
    simp only [if_true, eq_self_iff_true]
    cases hm : (parserInit lit).GetMantissa ((parserInit lit).Check.2.1) <;> rfl
  · have hint2 : (parserInit lit).IsInteger = false := by
      cases h : (parserInit lit).IsInteger
      · rfl
      · exact absurd h hint
    rw [hint2]
    simp only [Bool.false_eq_true, if_false]
    cases hm : (parserInit lit).GetMantissa ((parserInit lit).Check.2.1) <;>
      cases he : (parserInit lit).GetExponent ((parserInit lit).Check.2.2.1) <;> rfl

/-- Claim C1 (corrected), counterexample: on `0b1.01` the analyzer emits
`BinaryRealLiteral` but `ComputeValue` does *not* return
`UnrecoverableError` — it returns `Real(radix 2, mantissa 5, exponent -2)`. -/
theorem claim_binary_real_counterexample :
    numLitBinaryReal.ComputeValue =
      (some (NumValue.real 2 5 (-2)), [Diag.BinaryRealLiteral]) ∧
    (numLitBinaryReal.ComputeValue).1 ≠ some NumValue.unrecoverableError := by
  constructor <;> decide

/-- Claim C1 (corrected), amended: for every radix-2 lexeme with a radix
point whose validation succeeds, the `BinaryRealLiteral` diagnostic is
emitted, yet `ComputeValue` returns a `Real` payload with radix 2 rather than
`UnrecoverableError`. -/
theorem claim_binary_real_nonfatal (lit : LexedNumericLiteral)
    (hn : Char.ofNat 0 ∉ lit.text)
    (hlen : lit.radix_point ≤ lit.text.length)
    (hdot : lit.radix_point < lit.text.length →
      lit.text.getD lit.radix_point (Char.ofNat 0) = '.')
    (h2 : (parserInit lit).radix = 2)
    (hreal : (parserInit lit).IsInteger = false)
    (hok : (parserInit lit).Check.1 = true) :
    Diag.BinaryRealLiteral ∈ (lit.ComputeValue).2 ∧
    (lit.ComputeValue).1 ≠ some NumValue.unrecoverableError ∧
    ∃ m e, (lit.ComputeValue).1 = some (NumValue.real 2 m e) := by
  have hval := computeValue_real_spec lit hn hlen hdot hok hreal
  refine ⟨?_, ?_, ?_⟩
  · rw [computeValue_diags_of_ok lit hok]
    rw [(check_ok_real hok hreal).2.2.2.2.2, h2]
    simp
  · rw [hval]; simp
  · exact ⟨natOfDigits (parserInit lit).radix
      (stripSeparators ((parserInit lit).int_part ++ (parserInit lit).fract_part)),
      numEncodedExponent (parserInit lit) - numExponentComp (parserInit lit),
      by rw [hval, h2]; norm_num⟩

/-- Witness for the amended claim C1, at `0b1.01`. -/
theorem claim_binary_real_nonfatal_witness :
    Diag.BinaryRealLiteral ∈ (numLitBinaryReal.ComputeValue).2 ∧
    (numLitBinaryReal.ComputeValue).1 ≠ some NumValue.unrecoverableError ∧
    ∃ m e, (numLitBinaryReal.ComputeValue).1 = some (NumValue.real 2 m e) :=
  claim_binary_real_nonfatal numLitBinaryReal (by decide) (by decide) (by decide)
    (by decide) (by decide) (by decide)

/-- Claim C2 (corrected), counterexample: `0b1.01` is a real literal that
validates successfully, yet its `Real` radix is 2, not the 10 the claim's
"10 otherwise" clause predicts for a non-hexadecimal source radix. -/
theorem claim_real_value_counterexample :
    (numLitBinaryReal.ComputeValue).1 = some (NumValue.real 2 5 (-2)) ∧
    (numLitBinaryReal.ComputeValue).1 ≠ some (NumValue.real 10 5 (-2)) := by
  constructor <;> decide

/-- Claim C2 (corrected), amended: for every real literal that validates
successfully, `ComputeValue` returns a `Real` whose radix is 2 when the
source radix is 16 *or 2* and 10 when it is 10, whose mantissa is the
integer-part digits concatenated with the fractional-part digits (underscores
and the radix point removed) read in the source radix, and whose exponent is
the encoded exponent (signed, base 10, 0 when absent) minus `fract_len`
(times 4 for radix 16). -/
theorem claim_real_value (lit : LexedNumericLiteral)
    (hn : Char.ofNat 0 ∉ lit.text)
    (hlen : lit.radix_point ≤ lit.text.length)
    (hdot : lit.radix_point < lit.text.length →
      lit.text.getD lit.radix_point (Char.ofNat 0) = '.')
    (hok : (parserInit lit).Check.1 = true)
    (hreal : (parserInit lit).IsInteger = false) :
    (lit.ComputeValue).1 = some (NumValue.real
      (if (parserInit lit).radix = 16 ∨ (parserInit lit).radix = 2 then 2 else 10)
      (natOfDigits (parserInit lit).radix
        (stripSeparators ((parserInit lit).int_part ++ (parserInit lit).fract_part)))
      (numEncodedExponent (parserInit lit) - numExponentComp (parserInit lit))) := by
  have hval := computeValue_real_spec lit hn hlen hdot hok hreal
  rcases parserInit_radix_cases lit with h | h | h <;> rw [hval, h] <;> norm_num

/-- Witness for the amended claim C2: `0x1.8p4` yields
`Real(radix 2, mantissa 24, exponent 0)` and `1.5e2` yields
`Real(radix 10, mantissa 15, exponent 1)`. -/
theorem claim_real_value_witness :
    (numLitHexReal.ComputeValue).1 = some (NumValue.real 2 24 0) ∧
    (numLitDecReal.ComputeValue).1 = some (NumValue.real 10 15 1) := by
  constructor
  · rw [claim_real_value numLitHexReal (by decide) (by decide) (by decide)
      (by decide) (by decide)]
    decide
  · rw [claim_real_value numLitDecReal (by decide) (by decide) (by decide)
      (by decide) (by decide)]
    decide

/-- Witness for claim C3: `0xFF_FF_FF` computes to the integer 16777215. -/
theorem claim_integer_value_witness :
    (numLitHexInt.ComputeValue).1 = some (NumValue.integer 16777215) := by
  rw [claim_integer_value numLitHexInt (by decide) (by decide) (by decide)]
  decide

/-- Evaluation of `ComputeValue` on the lexeme `1_000`. -/
theorem numLitThousand_value :
    numLitThousand.ComputeValue = (some (NumValue.integer 1000), []) := by
  simp [numLitThousand, LexedNumericLiteral.ComputeValue, NumParser.Check,
    CheckDigitSequence, CheckDigitSeparatorPlacement, sepLoop, cdsLoop,
    CheckLeadingZero, parserInit, NumParser.IsInteger, NumParser.CheckExponentPart,
    NumParser.GetMantissa, ParseInteger, parseDigitsLoop, digitVal, validDigit,
    List.isPrefixOf]

/-- Claim C4 (corrected), counterexample: computing the value of `1_000`
emits *zero* `IrregularDigitSeparators` diagnostics, not one — the separator
placement `1_000` is regular (the stride-4 walk from the right lands on the
underscore). -/
theorem claim_thousand_counterexample :
    (numLitThousand.ComputeValue).2.count (Diag.IrregularDigitSeparators 10) = 0 ∧
    (numLitThousand.ComputeValue).1 = some (NumValue.integer 1000) := by
  rw [numLitThousand_value]
  decide

/-- Claim C4 (corrected), amended: lexing and computing the value of the
decimal literal `1_000` produces the integer 1000 and emits no diagnostics at
all. -/
theorem claim_thousand_amended :
    numLitThousand.ComputeValue = (some (NumValue.integer 1000), []) :=
  numLitThousand_value

/-- If position `i` of the scanned text holds a misplaced underscore — first
(with the given `prev` context), adjacent to another underscore, last, or in
a part where separators are disallowed — the loop emits
`InvalidDigitSeparator`, provided no invalid digit aborts the scan first. -/
theorem cdsLoop_sep_mem {radix : Nat} {allow : Bool} :
    ∀ {text : List Char} (prev : Option Char),
      (∀ c ∈ text, validDigit radix c = true ∨ c = '_') →
      ∀ i, i < text.length → text.getD i (Char.ofNat 0) = '_' →
      (allow = false ∨ (i = 0 ∧ (prev = none ∨ prev = some '_')) ∨
        (1 ≤ i ∧ text.getD (i - 1) (Char.ofNat 0) = '_') ∨ i + 1 = text.length) →
      Diag.InvalidDigitSeparator ∈ (cdsLoop radix allow prev text).2.2 := by
  intro text
  induction text with
  | nil =>
    intro prev _ i hi
    simp at hi
  | cons c rest ih =>
    intro prev hall i hi hu hbad
    rcases Nat.eq_zero_or_pos i with rfl | hipos
    · have hc : c = '_' := by simpa using hu
      subst hc
      rw [cdsLoop_cons_underscore]
      have hb : (!allow || prev = none || prev = some '_' || rest = []) = true := by
        rcases hbad with h | ⟨_, h | h⟩ | ⟨h1, _⟩ | h
        · simp [h]
        · simp [h]
        · simp [h]
        · omega
        · have hrest : rest = [] := by
            have : rest.length = 0 := by simpa using h.symm
            exact List.length_eq_zero.mp this
          simp [hrest]
      rw [hb]
      simp
    · obtain ⟨j, rfl⟩ : ∃ j, i = j + 1 := ⟨i - 1, by omega⟩
      have hd2 : rest.getD j (Char.ofNat 0) = '_' := by simpa using hu
      have hj : j < rest.length := by simpa using hi
      have hrest : ∀ d ∈ rest, validDigit radix d = true ∨ d = '_' :=
        fun d hd => hall d (by simp [hd])
      have hbad2 : allow = false ∨ (j = 0 ∧ (some c = none ∨ some c = some '_')) ∨
          (1 ≤ j ∧ rest.getD (j - 1) (Char.ofNat 0) = '_') ∨ j + 1 = rest.length := by
        rcases hbad with h | ⟨h, _⟩ | ⟨h1, h2⟩ | h
        · exact Or.inl h
        · omega
        · rcases Nat.eq_zero_or_pos j with rfl | hjpos
          · have hc : c = '_' := by simpa using h2
            exact Or.inr (Or.inl ⟨rfl, Or.inr (by rw [hc])⟩)
          · obtain ⟨j2, rfl⟩ : ∃ j2, j = j2 + 1 := ⟨j - 1, by omega⟩
            have : rest.getD j2 (Char.ofNat 0) = '_' := by simpa using h2
            exact Or.inr (Or.inr (Or.inl ⟨by omega, by simpa using this⟩))
        · exact Or.inr (Or.inr (Or.inr (by simpa using h)))
      have hmem := ih (some c) hrest j hj hd2 hbad2
      rcases hall c (by simp) with hv | hv
      · rw [cdsLoop_cons_valid hv]
        exact hmem
      · subst hv
        rw [cdsLoop_cons_underscore]
        exact List.mem_append_right _ hmem

/-- Evaluation of `ComputeValue` on the lexeme `1_`: the trailing separator
is diagnosed (and the stride check also fires) but the value is computed. -/
theorem numLitTrailingSep_value :
    numLitTrailingSep.ComputeValue =
      (some (NumValue.integer 1),
        [Diag.InvalidDigitSeparator, Diag.IrregularDigitSeparators 10]) := by
  simp [numLitTrailingSep, LexedNumericLiteral.ComputeValue, NumParser.Check,
    CheckDigitSequence, CheckDigitSeparatorPlacement, sepLoop, cdsLoop,
    CheckLeadingZero, parserInit, NumParser.IsInteger, NumParser.CheckExponentPart,
    NumParser.GetMantissa, ParseInteger, parseDigitsLoop, digitVal, validDigit,
    List.isPrefixOf]

/-- Claim C10 (confirmed).  A misplaced digit separator (underscore first or
last in its digit sequence, adjacent to another underscore, or in a part
where separators are disallowed) emits `InvalidDigitSeparator` but is not
fatal: a sequence with at least one valid digit and no invalid digit still
passes `CheckDigitSequence`, and — concretely — the lexeme `1_` computes to
`Integer 1` rather than `UnrecoverableError`. -/
theorem claim_invalid_separator_nonfatal (radix : Nat) (allow : Bool) (text : List Char)
    (hall : ∀ c ∈ text, validDigit radix c = true ∨ c = '_')
    (hdig : ∃ c ∈ text, validDigit radix c = true) :
    (CheckDigitSequence radix allow text).1 = true ∧
    (∀ i, i < text.length → text.getD i (Char.ofNat 0) = '_' →
      (allow = false ∨ i = 0 ∨ text.getD (i - 1) (Char.ofNat 0) = '_' ∨
        i + 1 = text.length) →
      Diag.InvalidDigitSeparator ∈ (CheckDigitSequence radix allow text).2.2) ∧
    numLitTrailingSep.ComputeValue =
      (some (NumValue.integer 1),
        [Diag.InvalidDigitSeparator, Diag.IrregularDigitSeparators 10]) := by
  have hok : (cdsLoop radix allow none text).1 = true := cdsLoop_ok_of_valid hall none
  have hcnt := @cdsLoop_count_of_valid radix allow text hall none
  have hcl : text.count '_' ≠ text.length := by
    intro heq
    obtain ⟨c, hcm, hcv⟩ := hdig
    have hcu : c ≠ '_' := by
      intro h
      rw [h, validDigit_not_underscore] at hcv
      cases hcv
    exact hcu (List.count_eq_length.mp heq c hcm).symm
  have h1 : (CheckDigitSequence radix allow text).1 = true := by
    unfold CheckDigitSequence
    dsimp only
    rw [hok, hcnt]
    simp only [Bool.not_true, Bool.false_eq_true, if_false]
    rw [if_neg hcl]
    by_cases hz : text.count '_' ≠ 0
    · rw [if_pos hz]
    · rw [if_neg hz]
  refine ⟨h1, ?_, numLitTrailingSep_value⟩
  intro i hi hu hbad
  have hdiags := CheckDigitSequence_ok_diags h1
  rw [hdiags]
  apply List.mem_append_left
  apply cdsLoop_sep_mem none hall i hi hu
  rcases hbad with h | h | h | h
  · exact Or.inl h
  · exact Or.inr (Or.inl ⟨h, Or.inl rfl⟩)
  · rcases Nat.eq_zero_or_pos i with rfl | hipos
    · exact Or.inr (Or.inl ⟨rfl, Or.inl rfl⟩)
    · exact Or.inr (Or.inr (Or.inl ⟨hipos, h⟩))
  · exact Or.inr (Or.inr (Or.inr h))

/-- Witness for claim C10, at radix 10, `allow = true`, text `1_`
(trailing separator at index 1). -/
theorem claim_invalid_separator_nonfatal_witness :
    (CheckDigitSequence 10 true ("1_".toList)).1 = true ∧
    Diag.InvalidDigitSeparator ∈ (CheckDigitSequence 10 true ("1_".toList)).2.2 := by
  have h := claim_invalid_separator_nonfatal 10 true ("1_".toList)
    (by decide) (by decide)
  exact ⟨h.1, h.2.1 1 (by decide) (by decide) (by decide)⟩

/-- The stride walk reads only positions below its starting index, so a
suffix beyond that index does not affect it. -/
theorem sepLoop_append {radix : Nat} (T U : List Char) :
    ∀ pos : Nat, pos ≤ T.length → ∀ rem : Int,
      sepLoop radix (T ++ U) pos rem = sepLoop radix T pos rem := by
  intro pos
  induction pos using Nat.strong_induction_on with
  | _ pos ih =>
    intro hpos rem
    conv_lhs => unfold sepLoop
    conv_rhs => unfold sepLoop
    by_cases h : (if radix = 10 then 4 else 5) ≤ pos
    · rw [dif_pos h, dif_pos h]
      dsimp only
      have hb : 1 ≤ (if radix = 10 then 4 else 5) := by
        by_cases hr : radix = 10 <;> simp [hr]
      have hidx : pos - (if radix = 10 then 4 else 5) < T.length := by omega
      have hget : (T ++ U).getD (pos - (if radix = 10 then 4 else 5)) (Char.ofNat 0) =
          T.getD (pos - (if radix = 10 then 4 else 5)) (Char.ofNat 0) :=
        List.getD_append T U (Char.ofNat 0) _ hidx
      rw [hget]
      by_cases hu : T.getD (pos - (if radix = 10 then 4 else 5)) (Char.ofNat 0) = '_'
      · rw [if_pos hu, if_pos hu]
        have hlt : pos - (if radix = 10 then 4 else 5) < pos := by omega
        exact ih _ hlt (le_trans (Nat.sub_le _ _) hpos) _
      · rw [if_neg hu, if_neg hu]
    · rw [dif_neg h, dif_neg h]

/-- Separator count of a uniformly grouped text: one underscore per extra
group. -/
theorem grouped_count {g : List Char} {gs : List (List Char)}
    (hg : g.count '_' = 0) (hgs : ∀ h ∈ gs, h.count '_' = 0) :
    (separatorGroupedText g gs).count '_' = gs.length := by
  have key : ∀ (l : List (List Char)), (∀ h ∈ l, h.count '_' = 0) →
      ((l.map (fun h => '_' :: h)).join).count '_' = l.length := by
    intro l
    induction l with
    | nil => intro _; simp
    | cons h t iht =>
      intro hall
      simp only [List.map_cons, List.join_cons, List.count_append, List.count_cons]
      rw [iht (fun d hd => hall d (by simp [hd])), hall h (by simp)]
      simp [Nat.add_comm]
  unfold separatorGroupedText
  rw [List.count_append, hg, key gs hgs]
  simp

/-- The stride walk accepts a uniformly grouped text: first group of length
below the stride, every later group exactly one below the stride, walked with
the exact number of separators remaining. -/
theorem sepLoop_grouped {radix : Nat} (hr : radix = 10 ∨ radix = 16) :
    ∀ (gs : List (List Char)) (g : List Char),
      1 ≤ g.length → g.length < (if radix = 10 then 4 else 5) →
      (∀ h ∈ gs, h.length + 1 = (if radix = 10 then 4 else 5)) →
      sepLoop radix (separatorGroupedText g gs) (separatorGroupedText g gs).length
        (gs.length : Int) = [] := by
  intro gs
  induction gs using List.reverseRecOn with
  | nil =>
    intro g hg1 hg2 _
    unfold separatorGroupedText
    simp only [List.map_nil, List.join_nil, List.append_nil]
    conv_lhs => unfold sepLoop
    rw [dif_neg (by omega)]
    simp
  | append_singleton gs h ih =>
    intro g hg1 hg2 hlen
    have hlh : h.length + 1 = (if radix = 10 then 4 else 5) := (hlen h (by simp))
    have hstep : separatorGroupedText g (gs ++ [h]) =
        separatorGroupedText g gs ++ ('_' :: h) := by
      unfold separatorGroupedText
      simp [List.join_append]
    have hT1 : 1 ≤ (separatorGroupedText g gs).length := by
      unfold separatorGroupedText
      simp
      omega
    have hlen2 : (separatorGroupedText g (gs ++ [h])).length =
        (separatorGroupedText g gs).length + (if radix = 10 then 4 else 5) := by
      rw [hstep]
      simp
      omega
    rw [hstep, ← hstep, hlen2]
    conv_lhs => unfold sepLoop
    rw [dif_pos (by omega)]
    dsimp only
    have hpos2 : (separatorGroupedText g gs).length + (if radix = 10 then 4 else 5) -
        (if radix = 10 then 4 else 5) = (separatorGroupedText g gs).length := by omega
    rw [hpos2, hstep]
    have hget : (separatorGroupedText g gs ++ ('_' :: h)).getD
        (separatorGroupedText g gs).length (Char.ofNat 0) = '_' := by
      rw [List.getD_append_right]
      · simp
      · exact le_refl _
    rw [if_pos hget]
    have hrem : ((gs ++ [h]).length : Int) - 1 = (gs.length : Int) := by
      simp
    rw [hrem]
    rw [sepLoop_append _ _ _ (le_refl _)]
    exact ih g hg1 hg2 (fun d hd => hlen d (by simp [hd]))

/-- Claim C5 (confirmed).  A digit sequence whose underscores are uniformly
placed every 3 digits from the right for radix 10 (every 4 for radix 16) —
equivalently, a text made of underscore-free groups joined by single
underscores, the leading group of 1 to 3 (resp. 4) characters and every
later group of exactly 3 (resp. 4) — produces no `IrregularDigitSeparators`
diagnostic; a text with no underscores at all also produces none. -/
theorem claim_uniform_separators (radix : Nat) (allow : Bool) (text : List Char)
    (hr : radix = 10 ∨ radix = 16)
    (hform : text.count '_' = 0 ∨
      ∃ g gs, text = separatorGroupedText g gs ∧ 1 ≤ g.length ∧
        g.length + 1 ≤ (if radix = 10 then 4 else 5) ∧ g.count '_' = 0 ∧
        ∀ h ∈ gs, h.length + 1 = (if radix = 10 then 4 else 5) ∧ h.count '_' = 0) :
    ∀ r, Diag.IrregularDigitSeparators r ∉ (CheckDigitSequence radix allow text).2.2 := by
  intro r
  unfold CheckDigitSequence
  dsimp only
  rcases Bool.eq_false_or_eq_true ((cdsLoop radix allow none text).1) with hok | hok
  case inr =>
    rw [hok]
    simp only [Bool.not_false, if_true]
    exact cdsLoop_no_irregular none r
  case inl =>
    have hall := @cdsLoop_ok_mem radix allow text none hok
    have hcnt := @cdsLoop_count_of_valid radix allow text hall none
    rw [hok, hcnt]
    simp only [Bool.not_true, Bool.false_eq_true, if_false]
    by_cases hlen : text.count '_' = text.length
    · rw [if_pos hlen]
      intro hmem
      rcases List.mem_append.mp hmem with h1 | h1
      · exact cdsLoop_no_irregular none r h1
      · simp at h1
    · rw [if_neg hlen]
      by_cases hz : text.count '_' ≠ 0
      · rw [if_pos hz]
        rcases hform with hf | ⟨g, gs, htext, hg1, hg2, hgc, hgs⟩
        · exact absurd hf hz
        · have hplace : CheckDigitSeparatorPlacement text radix (text.count '_') = [] := by
            unfold CheckDigitSeparatorPlacement
            rw [if_neg (by rcases hr with rfl | rfl <;> omega)]
            have hcount : text.count '_' = gs.length := by
              rw [htext]
              exact grouped_count hgc (fun d hd => (hgs d hd).2)
            rw [hcount, htext]
            exact sepLoop_grouped hr gs g hg1 (by omega)
              (fun d hd => (hgs d hd).1)
          rw [hplace]
          intro hmem
          rcases List.mem_append.mp hmem with h1 | h1
          · exact cdsLoop_no_irregular none r h1
          · simp at h1
      · rw [if_neg hz]
        exact cdsLoop_no_irregular none r

/-- Witness for claim C5: the radix-10 text `12_345` (groups `12` and `345`)
draws no irregular-separator diagnostic. -/
theorem claim_uniform_separators_witness :
    Diag.IrregularDigitSeparators 10 ∉ (CheckDigitSequence 10 true ("12_345".toList)).2.2 :=
  claim_uniform_separators 10 true ("12_345".toList) (Or.inl rfl)
    (Or.inr ⟨"12".toList, ["345".toList], by decide, by decide, by decide, by decide,
      by decide⟩) 10

/-! ## Parse-tree lemmas -/

theorem validForest_le {t : ParseTree} {lo hi : Nat} (hv : ValidForest t lo hi) :
    lo ≤ hi := by
  induction hv with
  | nil lo => exact le_refl lo
  | snoc lo mid hi hmid hlt _ _ _ _ _ => omega

/-- Every node of a valid forest heads a subtree whose span lies inside the
forest: its size is at least 1, the span starts no earlier than the forest,
and the children form a valid forest over the span without the root. -/
theorem validForest_node {t : ParseTree} {lo hi : Nat} (hv : ValidForest t lo hi) :
    ∀ i, lo ≤ i → i < hi →
      1 ≤ subtreeSizeAt t i ∧ subtreeSizeAt t i ≤ i + 1 - lo ∧
      lo ≤ i + 1 - subtreeSizeAt t i ∧
      ValidForest t (i + 1 - subtreeSizeAt t i) i := by
  induction hv with
  | nil lo => intro i h1 h2; omega
  | snoc lo mid hi hmid hlt hroot hleft hsub ihl ihs =>
    intro i h1 h2
    by_cases him : i < mid
    · obtain ⟨g1, g2, g3, g4⟩ := ihl i h1 him
      exact ⟨g1, by omega, by omega, g4⟩
    · by_cases hieq : i = hi - 1
      · subst hieq
        rw [hroot]
        have harg : hi - 1 + 1 - (hi - mid) = mid := by omega
        rw [harg]
        exact ⟨by omega, by omega, by omega, hsub⟩
      · obtain ⟨g1, g2, g3, g4⟩ := ihs i (by omega) (by omega)
        exact ⟨g1, by omega, by omega, g4⟩

/-- The sibling walk over a valid forest visits each tree root once and the
subtree sizes it collects sum to the forest's span. -/
theorem siblingWalk_sum {t : ParseTree} {lo hi : Nat} (hv : ValidForest t lo hi) :
    ((siblingWalk t ((hi : Int) - 1) ((lo : Int) - 1)).map
      (fun j => subtreeSizeAt t j.toNat)).sum = hi - lo := by
  induction hv with
  | nil lo =>
    conv_lhs => rw [siblingWalk]
    rw [dif_pos (le_refl _)]
    simp
  | snoc lo mid hi hmid hlt hroot hleft hsub ihl ihs =>
    have htn : ((hi : Int) - 1).toNat = hi - 1 := by omega
    have hwalk : siblingWalk t ((hi : Int) - 1) ((lo : Int) - 1) =
        ((hi : Int) - 1) :: siblingWalk t ((mid : Int) - 1) ((lo : Int) - 1) := by
      conv_lhs => rw [siblingWalk]
      rw [dif_neg (by omega)]
      dsimp only
      rw [htn, hroot]
      rw [dif_neg (by omega)]
      have harg : (hi : Int) - 1 - ((hi - mid : Nat) : Int) = (mid : Int) - 1 := by omega
      rw [harg]
    rw [hwalk]
    simp only [List.map_cons, List.sum_cons]
    rw [ihl, htn, hroot]
    omega

/-- The postorder iterator range over consecutive integers. -/
theorem postorderSeq_eq : ∀ (n k : Nat),
    postorderSeq (k : Int) ((k : Int) + n) =
      (List.range' k n).map Int.ofNat := by
  intro n
  induction n with
  | zero =>
    intro k
    conv_lhs => rw [postorderSeq]
    rw [dif_pos (by omega)]
    simp [List.range']
  | succ n ihn =>
    intro k
    conv_lhs => rw [postorderSeq]
    rw [dif_neg (by omega)]
    have harg : (k : Int) + 1 = ((k + 1 : Nat) : Int) := by push_cast; ring
    have hstop : (k : Int) + ((n + 1 : Nat) : Int) = ((k + 1 : Nat) : Int) + (n : Int) := by
      push_cast; ring
    rw [harg, hstop, ihn (k + 1)]
    rfl

/-- Claim C9 (confirmed).  Under the subtree-span invariant, `Postorder(n)`
yields exactly `subtree_size(n)` nodes, namely the indices
`i - s + 1 .. i`, and the subtree sizes collected by the `Children`
sibling walk sum to `subtree_size(n) - 1`. -/
theorem claim_parse_tree_spans (t : ParseTree) (hv : ValidForest t 0 t.length)
    (i : Nat) (hi : i < t.length) :
    (t.Postorder i).length = subtreeSizeAt t i ∧
    t.Postorder i = (List.range' (i + 1 - subtreeSizeAt t i)
      (subtreeSizeAt t i)).map Int.ofNat ∧
    ((t.Children i).map (fun j => subtreeSizeAt t j.toNat)).sum =
      subtreeSizeAt t i - 1 := by
  obtain ⟨hs1, hs2, hs3, hsub⟩ := validForest_node hv i (Nat.zero_le i) hi
  have hcast : (i : Int) + 1 - subtreeSizeAt t i =
      ((i + 1 - subtreeSizeAt t i : Nat) : Int) := by omega
  have hstop : (i : Int) + 1 =
      ((i + 1 - subtreeSizeAt t i : Nat) : Int) + (subtreeSizeAt t i) := by omega
  have hpost : t.Postorder i = (List.range' (i + 1 - subtreeSizeAt t i)
      (subtreeSizeAt t i)).map Int.ofNat := by
    unfold ParseTree.Postorder
    rw [hcast, hstop]
    exact postorderSeq_eq _ _
  refine ⟨?_, hpost, ?_⟩
  · rw [hpost]
    rw [List.length_map, List.length_range']
  · unfold ParseTree.Children
    have harg : (i : Int) - subtreeSizeAt t i =
        (((i + 1 - subtreeSizeAt t i) : Nat) : Int) - 1 := by omega
    rw [harg]
    rw [siblingWalk_sum hsub]
    omega

/-- Witness for claim C9, at the four-record forest of spec scenario 9:
the interior node at index 3 spans all four records and its children's
sizes sum to 3. -/
theorem claim_parse_tree_spans_witness :
    (parseTreeExample.Postorder 3).length = 4 ∧
    ((parseTreeExample.Children 3).map
      (fun j => subtreeSizeAt parseTreeExample j.toNat)).sum = 3 := by
  have hleaves : ValidForest parseTreeExample 0 3 :=
    ValidForest.snoc 0 2 3 (by omega) (by omega) (by decide)
      (ValidForest.snoc 0 1 2 (by omega) (by omega) (by decide)
        (ValidForest.snoc 0 0 1 (by omega) (by omega) (by decide)
          (ValidForest.nil 0) (ValidForest.nil 0))
        (ValidForest.nil 1))
      (ValidForest.nil 2)
  have hv : ValidForest parseTreeExample 0 parseTreeExample.length :=
    ValidForest.snoc 0 0 4 (by omega) (by omega) (by decide)
      (ValidForest.nil 0) hleaves
  have h := claim_parse_tree_spans parseTreeExample hv 3 (by decide)
  refine ⟨?_, ?_⟩
  · rw [h.1]
    decide
  · rw [h.2.2]
    decide

/-! ## String-literal lemmas -/

/-- An uppercase hex digit has a digit value below 16. -/
theorem isUpperHex_digitVal {c : Char} (h : IsUpperHexDigit c = true) :
    ∃ v, digitVal c = some v ∧ v < 16 := by
  unfold IsUpperHexDigit at h
  simp only [Bool.or_eq_true, Bool.and_eq_true, decide_eq_true_eq] at h
  unfold digitVal
  rcases h with ⟨h1, h2⟩ | ⟨h1, h2⟩
  · rw [if_pos (by simp [h1, h2])]
    refine ⟨_, rfl, ?_⟩
    have ha := Char.le_def.mp h2
    simp [UInt32.le_def, BitVec.le_def] at ha
    simp [Char.toNat, UInt32.toNat]
    omega
  · have ha := Char.le_def.mp h1
    have hb := Char.le_def.mp h2
    simp [UInt32.le_def, BitVec.le_def] at ha hb
    rw [if_neg (by simp [Char.le_def, UInt32.le_def, BitVec.le_def]; omega)]
    rw [if_neg (by simp [Char.le_def, UInt32.le_def, BitVec.le_def]; omega)]
    rw [if_pos (by simp [Char.le_def, UInt32.le_def, BitVec.le_def]; omega)]
    refine ⟨_, rfl, ?_⟩
    simp [Char.toNat, UInt32.toNat]
    omega

/-- `takeWhile` over a satisfying block followed by a failing character. -/
theorem takeWhile_block {p : Char → Bool} {c : Char} (hc : p c = false) :
    ∀ (l1 l2 : List Char), (∀ d ∈ l1, p d = true) →
      (l1 ++ c :: l2).takeWhile p = l1 := by
  intro l1
  induction l1 with
  | nil =>
    intro l2 _
    simp [List.takeWhile_cons, hc]
  | cons d t iht =>
    intro l2 hall
    rw [List.cons_append, List.takeWhile_cons, hall d (by simp)]
    simp only [eq_self_iff_true, if_true]
    rw [iht l2 (fun e he => hall e (by simp [he]))]

/-- Claim C6 (corrected), amended: an escape `\u{digits}` (1-6 uppercase hex
digits) whose code point exceeds 0x10FFFF or is a surrogate emits
`UnicodeEscapeTooLarge` resp. `UnicodeEscapeSurrogate`, but the expansion
does not drop the escape body: the `u` is appended to the decoded value,
nothing is consumed from the remaining content (so the braced digits are
later copied verbatim), and decoding continues. -/
theorem claim_unicode_escape_invalid (digits rest : List Char)
    (hne : digits ≠ []) (hlen : digits.length ≤ 6)
    (hhex : ∀ c ∈ digits, IsUpperHexDigit c = true)
    (hval : 1114111 < natOfDigits 16 digits ∨
      (55296 ≤ natOfDigits 16 digits ∧ natOfDigits 16 digits < 57344)) :
    ExpandAndConsumeEscapeSequence 'u'
        (Char.ofNat 123 :: (digits ++ Char.ofNat 125 :: rest)) =
      (['u'], 0,
        [if 1114111 < natOfDigits 16 digits then Diag.UnicodeEscapeTooLarge
         else Diag.UnicodeEscapeSurrogate]) := by
  have hvals : ∀ c ∈ digits, ∃ v, digitVal c = some v ∧ v < 16 :=
    fun c hc => isUpperHex_digitVal (hhex c hc)
  have hparse : parseDigitsLoop 16 0 digits = some (natOfDigits 16 digits) :=
    parseDigitsLoop_eq_fold hvals 0
  have hbound : natOfDigits 16 digits < 4294967296 := by
    have h1 : natOfDigits 16 digits < 16 ^ digits.length := by
      apply natOfDigits_lt (by omega)
      intro c hc
      obtain ⟨v, hv, hlt⟩ := hvals c hc
      simp [hv]
      omega
    have h2 : (16 : Nat) ^ digits.length ≤ 16 ^ 6 :=
      Nat.pow_le_pow_right (by omega) hlen
    calc natOfDigits 16 digits < 16 ^ digits.length := h1
      _ ≤ 16 ^ 6 := h2
      _ < 4294967296 := by norm_num
  have hexp : ExpandUnicodeEscapeSequence digits =
      (false, [],
        [if 1114111 < natOfDigits 16 digits then Diag.UnicodeEscapeTooLarge
         else Diag.UnicodeEscapeSurrogate]) := by
    unfold ExpandUnicodeEscapeSequence
    rw [if_neg (by simp [CanLexInteger, hlen])]
    rw [hparse]
    dsimp only
    rw [if_neg (by omega)]
    rcases hval with hv | hv
    · rw [if_pos hv, if_pos hv]
    · rw [if_neg (by omega)]
      rw [if_pos (by simp only [Bool.and_eq_true, decide_eq_true_eq]; omega)]
      rw [if_neg (by omega)]
  have htake : (digits ++ Char.ofNat 125 :: rest).takeWhile IsUpperHexDigit = digits :=
    takeWhile_block (by decide) digits rest hhex
  unfold ExpandAndConsumeEscapeSequence
  rw [if_neg (by decide), if_neg (by decide), if_neg (by decide), if_neg (by decide),
    if_neg (by decide), if_neg (by decide), if_neg (by decide), if_neg (by decide)]
  rw [if_pos rfl]
  dsimp only
  rw [if_pos rfl]
  rw [htake]
  rw [List.drop_left]
  rw [if_pos (by simp [hne])]
  rw [hexp]
  dsimp only
  rw [if_neg (by simp)]


/-- One step of the string-lexing scan over a character that is neither an
active escape introducer, a single-line-terminating newline, nor a closing
quote. -/
theorem strLexLoop_step (source : List Char) (multi : Bool) (hash_level prefix_len : Nat)
    (terminator escape : List Char) (cursor : Nat)
    (h1 : cursor < source.length)
    (h2 : source.getD cursor (Char.ofNat 0) ≠ '\\')
    (h3 : source.getD cursor (Char.ofNat 0) = '\n' → multi = true)
    (h4 : source.getD cursor (Char.ofNat 0) = '"' →
      terminator.length ≠ 1 ∧ terminator.isPrefixOf (source.drop cursor) = false) :
    strLexLoop source multi hash_level prefix_len terminator escape cursor =
      strLexLoop source multi hash_level prefix_len terminator escape (cursor + 1) := by
  conv_lhs => rw [strLexLoop]
  rw [if_pos h1]
  dsimp only
  rw [if_neg h2]
  by_cases hc : source.getD cursor (Char.ofNat 0) = '\n'
  · rw [if_pos hc, h3 hc]
    simp only [Bool.not_true]
    rw [if_neg (by simp)]
  · rw [if_neg hc]
    by_cases hq : source.getD cursor (Char.ofNat 0) = '"'
    · rw [if_pos hq]
      obtain ⟨ha, hb⟩ := h4 hq
      rw [if_neg (by simp [ha, hb])]
    · rw [if_neg hq]

/-- One step of the string-lexing scan across an escape introducer whose
escaped character keeps the literal open. -/
theorem strLexLoop_esc (source : List Char) (multi : Bool) (hash_level prefix_len : Nat)
    (terminator escape : List Char) (cursor : Nat)
    (h1 : cursor < source.length)
    (h2 : source.getD cursor (Char.ofNat 0) = '\\')
    (h3 : escape.length = 1 ∨ escape.isPrefixOf (source.drop cursor) = true)
    (h4 : cursor + escape.length < source.length)
    (h5 : multi = true ∨ source.getD (cursor + escape.length) (Char.ofNat 0) ≠ '\n') :
    strLexLoop source multi hash_level prefix_len terminator escape cursor =
      strLexLoop source multi hash_level prefix_len terminator escape
        (cursor + escape.length + 1) := by
  conv_lhs => rw [strLexLoop]
  rw [if_pos h1]
  dsimp only
  rw [if_pos h2]
  rw [if_pos (by rcases h3 with h | h <;> simp [h])]
  rw [if_neg (by
    rcases h5 with h5 | h5
    · simp [h5]
      exact h4
    · simp [h5]
      exact ⟨h4, fun _ => by simpa using h5⟩)]

/-- One step of the string-lexing scan over a backslash that is not an
escape introducer (raw strings with a higher hash level). -/
theorem strLexLoop_bs (source : List Char) (multi : Bool) (hash_level prefix_len : Nat)
    (terminator escape : List Char) (cursor : Nat)
    (h1 : cursor < source.length)
    (h2 : source.getD cursor (Char.ofNat 0) = '\\')
    (h3 : escape.length ≠ 1)
    (h4 : escape.isPrefixOf (source.drop cursor) = false) :
    strLexLoop source multi hash_level prefix_len terminator escape cursor =
      strLexLoop source multi hash_level prefix_len terminator escape (cursor + 1) := by
  conv_lhs => rw [strLexLoop]
  rw [if_pos h1]
  dsimp only
  rw [if_pos h2]
  rw [if_neg (by simp [h3, h4])]

/-- The string-lexing scan stops at the terminator and records a terminated
literal with the content between the prefix and the terminator. -/
theorem strLexLoop_term (source : List Char) (multi : Bool) (hash_level prefix_len : Nat)
    (terminator escape : List Char) (cursor : Nat)
    (h1 : cursor < source.length)
    (h2 : source.getD cursor (Char.ofNat 0) = '"')
    (h3 : terminator.length = 1 ∨ terminator.isPrefixOf (source.drop cursor) = true) :
    strLexLoop source multi hash_level prefix_len terminator escape cursor =
      ⟨source.take (cursor + terminator.length),
        (source.drop prefix_len).take (cursor - prefix_len), hash_level, multi, true⟩ := by
  conv_lhs => rw [strLexLoop]
  rw [if_pos h1]
  dsimp only
  rw [if_neg (by rw [h2]; decide)]
  rw [if_neg (by rw [h2]; decide)]
  rw [if_pos h2]
  rw [if_pos (by rcases h3 with h | h <;> simp [h])]

/-- Lexing `"\u\x7b110000\x7d"` recognizes a terminated simple string with
the escape as its content. -/
theorem strTooLarge_lex : LexedStringLiteral.Lex strSourceTooLarge = some strTooLargeLit := by
  have h0 : LexedStringLiteral.Lex strSourceTooLarge =
      some (strLexLoop strSourceTooLarge false 0 1 ['"'] ['\\'] 1) := rfl
  have e1 : strLexLoop strSourceTooLarge false 0 1 ['"'] ['\\'] 1 =
      strLexLoop strSourceTooLarge false 0 1 ['"'] ['\\'] 3 :=
    strLexLoop_esc _ _ _ _ _ _ _ (by decide) (by decide) (Or.inl (by decide))
      (by decide) (Or.inr (by decide))
  have e2 : strLexLoop strSourceTooLarge false 0 1 ['"'] ['\\'] 3 =
      strLexLoop strSourceTooLarge false 0 1 ['"'] ['\\'] 4 :=
    strLexLoop_step _ _ _ _ _ _ _ (by decide) (by decide) (by decide) (by decide)
  have e3 : strLexLoop strSourceTooLarge false 0 1 ['"'] ['\\'] 4 =
      strLexLoop strSourceTooLarge false 0 1 ['"'] ['\\'] 5 :=
    strLexLoop_step _ _ _ _ _ _ _ (by decide) (by decide) (by decide) (by decide)
  have e4 : strLexLoop strSourceTooLarge false 0 1 ['"'] ['\\'] 5 =
      strLexLoop strSourceTooLarge false 0 1 ['"'] ['\\'] 6 :=
    strLexLoop_step _ _ _ _ _ _ _ (by decide) (by decide) (by decide) (by decide)
  have e5 : strLexLoop strSourceTooLarge false 0 1 ['"'] ['\\'] 6 =
      strLexLoop strSourceTooLarge false 0 1 ['"'] ['\\'] 7 :=
    strLexLoop_step _ _ _ _ _ _ _ (by decide) (by decide) (by decide) (by decide)
  have e6 : strLexLoop strSourceTooLarge false 0 1 ['"'] ['\\'] 7 =
      strLexLoop strSourceTooLarge false 0 1 ['"'] ['\\'] 8 :=
    strLexLoop_step _ _ _ _ _ _ _ (by decide) (by decide) (by decide) (by decide)
  have e7 : strLexLoop strSourceTooLarge false 0 1 ['"'] ['\\'] 8 =
      strLexLoop strSourceTooLarge false 0 1 ['"'] ['\\'] 9 :=
    strLexLoop_step _ _ _ _ _ _ _ (by decide) (by decide) (by decide) (by decide)
  have e8 : strLexLoop strSourceTooLarge false 0 1 ['"'] ['\\'] 9 =
      strLexLoop strSourceTooLarge false 0 1 ['"'] ['\\'] 10 :=
    strLexLoop_step _ _ _ _ _ _ _ (by decide) (by decide) (by decide) (by decide)
  have e9 : strLexLoop strSourceTooLarge false 0 1 ['"'] ['\\'] 10 =
      strLexLoop strSourceTooLarge false 0 1 ['"'] ['\\'] 11 :=
    strLexLoop_step _ _ _ _ _ _ _ (by decide) (by decide) (by decide) (by decide)
  have e10 : strLexLoop strSourceTooLarge false 0 1 ['"'] ['\\'] 11 = strTooLargeLit :=
    strLexLoop_term _ _ _ _ _ _ _ (by decide) (by decide) (Or.inl (by decide))
  rw [h0, e1, e2, e3, e4, e5, e6, e7, e8, e9, e10]

/-- Lexing the raw string `#"a\n"#` recognizes a terminated hash-level-1
string whose content is the three characters `a`, `\`, `n`. -/
theorem strRaw_lex : LexedStringLiteral.Lex strSourceRaw = some strRawLit := by
  have h0 : LexedStringLiteral.Lex strSourceRaw =
      some (strLexLoop strSourceRaw false 1 2 ['"', '#'] ['\\', '#'] 2) := rfl
  have e1 : strLexLoop strSourceRaw false 1 2 ['"', '#'] ['\\', '#'] 2 =
      strLexLoop strSourceRaw false 1 2 ['"', '#'] ['\\', '#'] 3 :=
    strLexLoop_step _ _ _ _ _ _ _ (by decide) (by decide) (by decide) (by decide)
  have e2 : strLexLoop strSourceRaw false 1 2 ['"', '#'] ['\\', '#'] 3 =
      strLexLoop strSourceRaw false 1 2 ['"', '#'] ['\\', '#'] 4 :=
    strLexLoop_bs _ _ _ _ _ _ _ (by decide) (by decide) (by decide) (by decide)
  have e3 : strLexLoop strSourceRaw false 1 2 ['"', '#'] ['\\', '#'] 4 =
      strLexLoop strSourceRaw false 1 2 ['"', '#'] ['\\', '#'] 5 :=
    strLexLoop_step _ _ _ _ _ _ _ (by decide) (by decide) (by decide) (by decide)
  have e4 : strLexLoop strSourceRaw false 1 2 ['"', '#'] ['\\', '#'] 5 = strRawLit :=
    strLexLoop_term _ _ _ _ _ _ _ (by decide) (by decide) (Or.inr (by decide))
  rw [h0, e1, e2, e3, e4]

/-- Lexing the multi-line string recognizes a terminated multi-line literal
whose content runs from after the opening newline to the closing `"""`. -/
theorem strMulti_lex : LexedStringLiteral.Lex strSourceMulti = some strMultiLit := by
  have h0 : LexedStringLiteral.Lex strSourceMulti =
      some (strLexLoop strSourceMulti true 0 4 ['"', '"', '"'] ['\\'] 4) := rfl
  have e1 : strLexLoop strSourceMulti true 0 4 ['"', '"', '"'] ['\\'] 4 =
      strLexLoop strSourceMulti true 0 4 ['"', '"', '"'] ['\\'] 5 :=
    strLexLoop_step _ _ _ _ _ _ _ (by decide) (by decide) (by decide) (by decide)
  have e2 : strLexLoop strSourceMulti true 0 4 ['"', '"', '"'] ['\\'] 5 =
      strLexLoop strSourceMulti true 0 4 ['"', '"', '"'] ['\\'] 6 :=
    strLexLoop_step _ _ _ _ _ _ _ (by decide) (by decide) (by decide) (by decide)
  have e3 : strLexLoop strSourceMulti true 0 4 ['"', '"', '"'] ['\\'] 6 =
      strLexLoop strSourceMulti true 0 4 ['"', '"', '"'] ['\\'] 7 :=
    strLexLoop_step _ _ _ _ _ _ _ (by decide) (by decide) (by decide) (by decide)
  have e4 : strLexLoop strSourceMulti true 0 4 ['"', '"', '"'] ['\\'] 7 =
      strLexLoop strSourceMulti true 0 4 ['"', '"', '"'] ['\\'] 8 :=
    strLexLoop_step _ _ _ _ _ _ _ (by decide) (by decide) (by decide) (by decide)
  have e5 : strLexLoop strSourceMulti true 0 4 ['"', '"', '"'] ['\\'] 8 =
      strLexLoop strSourceMulti true 0 4 ['"', '"', '"'] ['\\'] 9 :=
    strLexLoop_step _ _ _ _ _ _ _ (by decide) (by decide) (by decide) (by decide)
  have e6 : strLexLoop strSourceMulti true 0 4 ['"', '"', '"'] ['\\'] 9 =
      strLexLoop strSourceMulti true 0 4 ['"', '"', '"'] ['\\'] 10 :=
    strLexLoop_step _ _ _ _ _ _ _ (by decide) (by decide) (by decide) (by decide)
  have e7 : strLexLoop strSourceMulti true 0 4 ['"', '"', '"'] ['\\'] 10 =
      strLexLoop strSourceMulti true 0 4 ['"', '"', '"'] ['\\'] 11 :=
    strLexLoop_step _ _ _ _ _ _ _ (by decide) (by decide) (by decide) (by decide)
  have e8 : strLexLoop strSourceMulti true 0 4 ['"', '"', '"'] ['\\'] 11 =
      strLexLoop strSourceMulti true 0 4 ['"', '"', '"'] ['\\'] 12 :=
    strLexLoop_step _ _ _ _ _ _ _ (by decide) (by decide) (by decide) (by decide)
  have e9 : strLexLoop strSourceMulti true 0 4 ['"', '"', '"'] ['\\'] 12 =
      strLexLoop strSourceMulti true 0 4 ['"', '"', '"'] ['\\'] 13 :=
    strLexLoop_step _ _ _ _ _ _ _ (by decide) (by decide) (by decide) (by decide)
  have e10 : strLexLoop strSourceMulti true 0 4 ['"', '"', '"'] ['\\'] 13 =
      strLexLoop strSourceMulti true 0 4 ['"', '"', '"'] ['\\'] 14 :=
    strLexLoop_step _ _ _ _ _ _ _ (by decide) (by decide) (by decide) (by decide)
  have e11 : strLexLoop strSourceMulti true 0 4 ['"', '"', '"'] ['\\'] 14 = strMultiLit :=
    strLexLoop_term _ _ _ _ _ _ _ (by decide) (by decide) (Or.inr (by decide))
  rw [h0, e1, e2, e3, e4, e5, e6, e7, e8, e9, e10, e11]

/-- When a line begins with the indent, the outer expansion loop strips it
and enters the inner loop. -/
theorem expandOuter_pre (escape indent contents acc : List Char) (ds : List Diag)
    (h : indent.isPrefixOf contents = true) :
    expandOuter escape indent contents acc ds =
      expandInner escape indent (contents.drop indent.length) acc ds := by
  conv_lhs => rw [expandOuter]
  rw [if_pos h]

/-- The inner expansion loop on exhausted contents returns the value and
diagnostics accumulated so far. -/
theorem expandInner_nil (escape indent acc : List Char) (ds : List Diag) :
    expandInner escape indent [] acc ds = (acc, ds) := by
  conv_lhs => rw [expandInner]
  simp only [List.takeWhile_nil, List.dropWhile_nil, List.append_nil]

/-- The inner expansion loop copies an ordinary (non-special) character. -/
theorem expandInner_ordinary (escape indent : List Char) (c : Char)
    (contents acc : List Char) (ds : List Diag) (hc : stringSpecialChar c = false) :
    expandInner escape indent (c :: contents) acc ds =
      expandInner escape indent contents (acc ++ [c]) ds := by
  have hb : (!stringSpecialChar c) = true := by simp [hc]
  conv_lhs => rw [expandInner]
  conv_rhs => rw [expandInner]
  dsimp only
  rw [List.takeWhile_cons, List.dropWhile_cons, hb]
  simp only [eq_self_iff_true, if_true]
  rw [List.append_cons]
  rfl

/-- The inner expansion loop copies a backslash that is not an escape
introducer. -/
theorem expandInner_backslash (escape indent contents acc : List Char) (ds : List Diag)
    (h : escape.isPrefixOf ('\\' :: contents) = false) :
    expandInner escape indent ('\\' :: contents) acc ds =
      expandInner escape indent contents (acc ++ ['\\']) ds := by
  conv_lhs => rw [expandInner]
  change (if escape.isPrefixOf ('\\' :: contents) = true then _
    else expandInner escape indent contents ((acc ++ []) ++ ['\\']) ds) = _
  rw [if_neg (by simp [h])]
  rw [List.append_nil]

/-- Expanding the content of the lexed `"\u\x7b110000\x7d"`: the escape fails
with `UnicodeEscapeTooLarge`, the `u` is kept, and the braced digits are then
copied verbatim. -/
theorem strTooLarge_value :
    strTooLargeLit.ComputeValue = ("u\x7b110000\x7d".toList, [Diag.UnicodeEscapeTooLarge]) := by
  have h0 : strTooLargeLit.ComputeValue =
      expandOuter ['\\'] [] "\\u\x7b110000\x7d".toList [] [] := rfl
  have s1 : expandOuter ['\\'] [] "\\u\x7b110000\x7d".toList [] [] =
      expandInner ['\\'] [] "\\u\x7b110000\x7d".toList [] [] := by
    conv_lhs => rw [expandOuter]
    rfl
  have s2 : expandInner ['\\'] [] "\\u\x7b110000\x7d".toList [] [] =
      expandInner ['\\'] [] "\x7b110000\x7d".toList ['u'] [Diag.UnicodeEscapeTooLarge] := by
    conv_lhs => rw [expandInner]
    rfl
  have s3 : expandInner ['\\'] [] "\x7b110000\x7d".toList ['u'] [Diag.UnicodeEscapeTooLarge] =
      ("u\x7b110000\x7d".toList, [Diag.UnicodeEscapeTooLarge]) := by
    conv_lhs => rw [expandInner]
    rfl
  rw [h0, s1, s2, s3]

/-- Expanding the content of the lexed raw string `#"a\n"#`: the backslash is
not an escape introducer at hash level 1, so the value is `a`, `\`, `n`. -/
theorem strRaw_value : strRawLit.ComputeValue = (['a', '\\', 'n'], []) := by
  have h0 : strRawLit.ComputeValue =
      expandOuter ['\\', '#'] [] ['a', '\\', 'n'] [] [] := rfl
  have s1 : expandOuter ['\\', '#'] [] ['a', '\\', 'n'] [] [] =
      expandInner ['\\', '#'] [] ['a', '\\', 'n'] [] [] := by
    conv_lhs => rw [expandOuter]
    rfl
  have s2 : expandInner ['\\', '#'] [] ['a', '\\', 'n'] [] [] =
      expandInner ['\\', '#'] [] ['n'] ['a', '\\'] [] := by
    conv_lhs => rw [expandInner]
    rfl
  have s3 : expandInner ['\\', '#'] [] ['n'] ['a', '\\'] [] = (['a', '\\', 'n'], []) := by
    conv_lhs => rw [expandInner]
    rfl
  rw [h0, s1, s2, s3]

/-- The backward scan over the multi-line example finds the final-line indent
between offsets 12 and 14 (the two spaces before the closing `"""`). -/
theorem strMulti_indent : indentOffsets strSourceMulti = (12, 14) := by
  have h0 : indentOffsets strSourceMulti = indentOffsetsLoop strSourceMulti 17 16 := rfl
  have s1 : indentOffsetsLoop strSourceMulti 17 16 = indentOffsetsLoop strSourceMulti 16 15 := by
    conv_lhs => rw [indentOffsetsLoop]
    rfl
  have s2 : indentOffsetsLoop strSourceMulti 16 15 = indentOffsetsLoop strSourceMulti 15 14 := by
    conv_lhs => rw [indentOffsetsLoop]
    rfl
  have s3 : indentOffsetsLoop strSourceMulti 15 14 = indentOffsetsLoop strSourceMulti 14 13 := by
    conv_lhs => rw [indentOffsetsLoop]
    rfl
  have s4 : indentOffsetsLoop strSourceMulti 14 13 = indentOffsetsLoop strSourceMulti 14 12 := by
    conv_lhs => rw [indentOffsetsLoop]
    rfl
  have s5 : indentOffsetsLoop strSourceMulti 14 12 = indentOffsetsLoop strSourceMulti 14 11 := by
    conv_lhs => rw [indentOffsetsLoop]
    rfl
  have s6 : indentOffsetsLoop strSourceMulti 14 11 = (12, 14) := by
    conv_lhs => rw [indentOffsetsLoop]
    rfl
  rw [h0, s1, s2, s3, s4, s5, s6]

/-- `CheckIndent` on the multi-line example: the indent is the two spaces of
the final line and no content precedes the closing `"""`. -/
theorem strMulti_checkIndent :
    CheckIndent strMultiLit.text strMultiLit.hash_level = ([' ', ' '], []) := by
  show CheckIndent strSourceMulti 0 = ([' ', ' '], [])
  unfold CheckIndent
  rw [strMulti_indent]
  rfl

/-- Expanding the content of the lexed multi-line example strips the
two-space indent and yields `hello` plus a newline, with no diagnostics. -/
theorem strMulti_value : strMultiLit.ComputeValue = ("hello\n".toList, []) := by
  have h0 : strMultiLit.ComputeValue =
      expandOuter ['\\'] (CheckIndent strMultiLit.text strMultiLit.hash_level).1
        "  hello\n  ".toList [] (CheckIndent strMultiLit.text strMultiLit.hash_level).2 := rfl
  rw [h0, strMulti_checkIndent]
  have s1 : expandOuter ['\\'] ([' ', ' '], ([] : List Diag)).1 "  hello\n  ".toList []
        ([' ', ' '], ([] : List Diag)).2 =
      expandInner ['\\'] [' ', ' '] "hello\n  ".toList [] [] := by
    conv_lhs => rw [expandOuter]
    rfl
  have s2 : expandInner ['\\'] [' ', ' '] "hello\n  ".toList [] [] =
      expandOuter ['\\'] [' ', ' '] "  ".toList "hello\n".toList [] := by
    conv_lhs => rw [expandInner]
    rfl
  have s3 : expandOuter ['\\'] [' ', ' '] "  ".toList "hello\n".toList [] =
      expandInner ['\\'] [' ', ' '] [] "hello\n".toList [] := by
    conv_lhs => rw [expandOuter]
    rfl
  have s4 : expandInner ['\\'] [' ', ' '] [] "hello\n".toList [] =
      ("hello\n".toList, []) := by
    conv_lhs => rw [expandInner]
    rfl
  rw [s1, s2, s3, s4]

/-- Claim C6 (corrected), counterexample: on the literal
`"\u\x7b110000\x7d"` ComputeValue emits `UnicodeEscapeTooLarge` but does not
leave the decoded value empty for the escape: the `u` and the braced digits
are appended verbatim, so the value is `u\x7b110000\x7d`. -/
theorem claim_unicode_escape_counterexample :
    (LexedStringLiteral.Lex strSourceTooLarge).map LexedStringLiteral.ComputeValue =
      some ("u\x7b110000\x7d".toList, [Diag.UnicodeEscapeTooLarge]) ∧
    "u\x7b110000\x7d".toList ≠ [] := by
  constructor
  · rw [strTooLarge_lex]
    show some strTooLargeLit.ComputeValue =
      some ("u\x7b110000\x7d".toList, [Diag.UnicodeEscapeTooLarge])
    rw [strTooLarge_value]
  · decide

/-- Witness for the amended C6 theorem at digits `110000` (code point
0x110000, one past the maximum) and empty remaining content. -/
theorem claim_unicode_escape_invalid_witness :
    ("110000".toList ≠ [] ∧ "110000".toList.length ≤ 6 ∧
      (∀ c ∈ "110000".toList, IsUpperHexDigit c = true) ∧
      1114111 < natOfDigits 16 "110000".toList) ∧
    ExpandAndConsumeEscapeSequence 'u'
        (Char.ofNat 123 :: ("110000".toList ++ Char.ofNat 125 :: [])) =
      (['u'], 0,
        [if 1114111 < natOfDigits 16 "110000".toList then Diag.UnicodeEscapeTooLarge
         else Diag.UnicodeEscapeSurrogate]) :=
  ⟨⟨by decide, by decide, by decide, by decide⟩,
    claim_unicode_escape_invalid "110000".toList [] (by decide) (by decide) (by decide)
      (Or.inl (by decide))⟩

/-- Claim C7 (confirmed).  With hash level `k ≥ 1`, a backslash whose
following characters are not `k` `#`s is not an escape introducer: the
expansion loop copies it verbatim and continues with the rest; and the raw
string `#"a\n"#` lexes as a terminated hash-level-1 literal whose value is
exactly the three bytes `a`, `\`, `n`. -/
theorem claim_raw_backslash (k : Nat) (indent contents acc : List Char) (ds : List Diag)
    (hk : 1 ≤ k) (h : (List.replicate k '#').isPrefixOf contents = false) :
    expandInner (mkEscape k) indent ('\\' :: contents) acc ds =
      expandInner (mkEscape k) indent contents (acc ++ ['\\']) ds ∧
    (LexedStringLiteral.Lex strSourceRaw).map LexedStringLiteral.ComputeValue =
      some (['a', '\\', 'n'], []) := by
  constructor
  · exact expandInner_backslash _ _ _ _ _ (by simp [mkEscape, List.isPrefixOf, h])
  · rw [strRaw_lex]
    show some strRawLit.ComputeValue = some (['a', '\\', 'n'], [])
    rw [strRaw_value]

/-- Witness for the C7 theorem at hash level 1 with content `\n` after an
accumulated `a`. -/
theorem claim_raw_backslash_witness :
    (1 ≤ 1 ∧ (List.replicate 1 '#').isPrefixOf ['n'] = false) ∧
    (expandInner (mkEscape 1) [] ('\\' :: ['n']) ['a'] [] =
        expandInner (mkEscape 1) [] ['n'] (['a'] ++ ['\\']) [] ∧
      (LexedStringLiteral.Lex strSourceRaw).map LexedStringLiteral.ComputeValue =
        some (['a', '\\', 'n'], [])) :=
  ⟨⟨by decide, by decide⟩, claim_raw_backslash 1 [] ['n'] ['a'] [] (by decide) (by decide)⟩

/-- Claim C8 (confirmed).  The multi-line literal `"""`, newline, two spaces
and `hello`, newline, two spaces and `"""` lexes as a terminated multi-line
string; its final-line indent is the two spaces with no diagnostic, and its
value is exactly `hello` followed by one newline, with no diagnostics. -/
theorem claim_multiline_indent :
    (LexedStringLiteral.Lex strSourceMulti).map
        (fun l => (l.multi_line, CheckIndent l.text l.hash_level, l.ComputeValue)) =
      some (true, ([' ', ' '], []), ("hello\n".toList, [])) := by
  rw [strMulti_lex]
  show some (strMultiLit.multi_line,
      CheckIndent strMultiLit.text strMultiLit.hash_level, strMultiLit.ComputeValue) =
    some (true, ([' ', ' '], []), ("hello\n".toList, []))
  rw [strMulti_checkIndent, strMulti_value]
  rfl

end Cocktail
